import Mathlib

/-!
Verification of the vector-index store, retrieval fusion, text projection and
batch indexing of the `emplois` repository, as a shallow embedding in Lean.

Modelling conventions:
* Python floats are modelled as rationals (`ℚ`); a vector is a `List ℚ`.
* Python dicts are modelled as association lists (`List (key × value)`), where
  assignment removes the old binding and appends the new one, so `lookupD`
  returns the latest binding — observationally equivalent to a Python dict
  (the code never observes dict iteration order except when inverting a dict
  freshly built with keys in ascending order, which this model reproduces).
* L2 normalisation (`vector / np.linalg.norm(vector)` guarded by `norm > 0`)
  involves a real square root, so it is kept as an explicit function
  parameter `normalize : List ℚ → List ℚ`; all theorems hold for every choice
  of this parameter, and witnesses instantiate it concretely.
* The external FAISS `IndexFlatIP` is modelled as the list of stored vectors;
  `index.search` returns the slots ranked by decreasing inner product with the
  query, ties broken by ascending slot id (the deterministic behaviour of the
  exact flat index), truncated to the requested count; `index.add` asserts
  that the added vectors have the index dimension; `index.reconstruct i`
  returns the stored vector of slot `i`.
* File I/O (`faiss.write_index`, pickling of the mapping sidecar) is modelled
  by `disk…` fields of the store state; `save` copies the in-memory state to
  them.
-/

/-- Python dict lookup `d.get(k)` / `d[k]` on an association list.  All dicts
built by this model keep their keys unique (`updD` drops the old binding), so
the scan direction is unobservable. -/
def lookupD {α β : Type} [DecidableEq α] : List (α × β) → α → Option β
  | [], _ => none
  | p :: rest, k => if p.1 = k then some p.2 else lookupD rest k

/-- Python `del d[k]` (also a no-op when the key is absent, used where the
source guards the deletion with a membership test). -/
def delD {α β : Type} [DecidableEq α] : List (α × β) → α → List (α × β)
  | [], _ => []
  | p :: rest, k => if p.1 = k then delD rest k else p :: delD rest k

/-- Python dict assignment `d[k] = v`: drop any old binding, append the new. -/
def updD {α β : Type} [DecidableEq α] (d : List (α × β)) (k : α) (v : β) :
    List (α × β) :=
  delD d k ++ [(k, v)]

/-- Python `f"{index_name}:{doc_id}"`. -/
def fullId (nm doc : String) : String := nm ++ ":" ++ doc

/-- Python `s.startswith(p)` (character-sequence prefix test). -/
def strStartsWith (s p : String) : Bool := p.data.isPrefixOf s.data

/-- Python slicing `s[n:]` (drop the first `n` characters). -/
def strDropLen (s : String) (n : Nat) : String := ⟨s.data.drop n⟩

/-- Inner product of two rational vectors (`faiss.IndexFlatIP` similarity). -/
def dotQ (a b : List ℚ) : ℚ := (List.zipWith (· * ·) a b).sum

/-- State of `FAISSVectorStore` (faiss_store.py): the flat index (slot `i`
holds `vecs[i]`), the two sidecar mappings, and the current content of the
index file and the pickled mapping file on disk. -/
structure Store where
  dimension : Nat
  vecs : List (List ℚ)
  id_to_index : List (String × Nat)
  index_to_id : List (Nat × String)
  diskVecs : List (List ℚ)
  diskIdToIndex : List (String × Nat)
  diskIndexToId : List (Nat × String)
deriving DecidableEq

/-- A freshly created store (`_create_new_index` on a missing file, with an
empty mapping sidecar): empty index, empty mappings, nothing on disk. -/
def emptyStore (d : Nat) : Store :=
  { dimension := d, vecs := [], id_to_index := [], index_to_id := []
    diskVecs := [], diskIdToIndex := [], diskIndexToId := [] }

/-- `FAISSVectorStore.save`: `faiss.write_index` plus `_save_mappings` — both
files are rewritten from the in-memory state. -/
def Store.save (s : Store) : Store :=
  { s with diskVecs := s.vecs, diskIdToIndex := s.id_to_index,
           diskIndexToId := s.index_to_id }

/-- The loop of `FAISSVectorStore.delete`: for each id found in
`id_to_index`, record its slot and delete both mapping entries.  Returns the
recorded slots (`indices_to_remove`, in processing order) and the state after
the loop. -/
def delLoop (nm : String) : Store → List String → (List Nat × Store)
  | s, [] => ([], s)
  | s, doc :: rest =>
    match lookupD s.id_to_index (fullId nm doc) with
    | some fidx =>
      let s' := { s with id_to_index := delD s.id_to_index (fullId nm doc),
                         index_to_id := delD s.index_to_id fidx }
      let r := delLoop nm s' rest
      (fidx :: r.1, r.2)
    | none => delLoop nm s rest

/-- The incremental numbering `new_mappings[len(all_vectors) - 1] = ...` of
`_rebuild_index_without_indices`: pair the kept full ids with consecutive new
slot numbers starting at `a`. -/
def enumD : Nat → List String → List (Nat × String)
  | _, [] => []
  | a, f :: rest => (a, f) :: enumD (a + 1) rest

/-- The dict comprehension `{v: k for k, v in new_mappings.items()}`: iterate
the freshly built mapping in insertion order, later bindings overwriting
earlier ones. -/
def invertD (l : List (Nat × String)) : List (String × Nat) :=
  l.foldl (fun acc p => updD acc p.2 p.1) []

/-- The loop over `range(self.index.ntotal)` of the rebuild: the slots that
are neither removed nor missing from `index_to_id`, in slot order, each paired
with its stored full id. -/
def rebuildKept (s : Store) (toRemove : List Nat) : List (Nat × String) :=
  (List.range s.vecs.length).filterMap fun i =>
    if i ∈ toRemove then none
    else match lookupD s.index_to_id i with
      | some fid => some (i, fid)
      | none => none

/-- `_rebuild_index_without_indices`: read back every vector whose slot is
neither removed nor missing from `index_to_id`, in slot order; build a fresh
index from them; renumber `index_to_id` and invert it into `id_to_index`.
Does not touch the disk. -/
def Store.rebuild (s : Store) (toRemove : List Nat) : Store :=
  if toRemove = [] then s
  else
    let kept := rebuildKept s toRemove
    if kept = [] then
      { s with vecs := [], index_to_id := [], id_to_index := [] }
    else
      let newI2D := enumD 0 (kept.map Prod.snd)
      { s with vecs := kept.map fun p => s.vecs.getD p.1 [],
               index_to_id := newI2D,
               id_to_index := invertD newI2D }

/-- `FAISSVectorStore.delete`: early return on an empty id list; otherwise run
the removal loop and, if any slot was collected, rebuild the index.  Note that
`delete` never calls `save`. -/
def Store.delete (s : Store) (nm : String) (ids : List String) : Store :=
  if ids = [] then s
  else
    let r := delLoop nm s ids
    if r.1 = [] then r.2 else r.2.rebuild r.1

/-- The mapping-update loop of `upsert`: `full_id = f"{index_name}:{doc_id}"`,
`id_to_index[full_id] = start_idx + i`, `index_to_id[start_idx + i] = full_id`. -/
def addMaps (nm : String) : Store → List String → Nat → Store
  | s, [], _ => s
  | s, doc :: rest, start =>
    addMaps nm
      { s with id_to_index := updD s.id_to_index (fullId nm doc) start,
               index_to_id := updD s.index_to_id start (fullId nm doc) }
      rest (start + 1)

/-- `np.array(normalized_vectors)` succeeds only on a homogeneous batch. -/
def sameLengths (ls : List (List ℚ)) : Bool :=
  ls.all fun v => v.length == (ls.headD []).length

/-- Outcome of `upsert`: normal return, or a raised exception together with
the state the store object was left in (Python mutates `self` in place, so a
raise can leave earlier mutations behind). -/
inductive UpsertResult where
  | ok (s : Store)
  | err (msg : String) (s : Store)
deriving DecidableEq

/-- The state of the store after the call, whether or not it raised. -/
def UpsertResult.state : UpsertResult → Store
  | .ok s => s
  | .err _ s => s

/-- `FAISSVectorStore.upsert`, line by line:
1. `if not ids or not vectors: return`;
2. `if len(ids) != len(vectors): raise ValueError(...)`;
3. each vector is normalised (`vector / norm` when `norm > 0`, modelled by the
   `normalize` parameter) and the batch packed by `np.array`, which raises on
   a ragged batch;
4. `self.delete(index_name, ids)` — the in-place delete-then-append;
5. `self.index.add(vectors_array)` — the flat index asserts the batch has the
   index dimension and otherwise appends at `start_idx = ntotal`;
6. the mapping loop (`addMaps`);
7. `self.save()`. -/
def Store.upsert (normalize : List ℚ → List ℚ) (s : Store) (nm : String)
    (ids : List String) (vectors : List (List ℚ)) : UpsertResult :=
  if ids = [] ∨ vectors = [] then .ok s
  else if ids.length ≠ vectors.length then
    .err ("Le nombre d'IDs doit correspondre au nombre de vecteurs") s
  else
    let normalized := vectors.map normalize
    if ¬ sameLengths normalized then
      .err ("np.array: inhomogeneous batch") s
    else
      let s1 := s.delete nm ids
      if ¬ normalized.all (fun v => v.length = s1.dimension) then
        .err ("faiss add: dimension assertion") s1
      else
        let s2 := { s1 with vecs := s1.vecs ++ normalized }
        .ok (addMaps nm s2 ids s1.vecs.length).save

/-- Ranking order of the flat index: decreasing score, ties broken by
ascending slot. -/
def rge (a b : Nat × ℚ) : Prop := b.2 < a.2 ∨ (a.2 = b.2 ∧ a.1 ≤ b.1)

instance : DecidableRel rge := fun a b =>
  decidable_of_iff (b.2 < a.2 ∨ (a.2 = b.2 ∧ a.1 ≤ b.1)) Iff.rfl

instance : IsTotal (Nat × ℚ) rge :=
  ⟨fun a b => by
    rcases lt_trichotomy a.2 b.2 with h | h | h
    · exact Or.inr (Or.inl h)
    · rcases Nat.le_total a.1 b.1 with h' | h'
      · exact Or.inl (Or.inr ⟨h, h'⟩)
      · exact Or.inr (Or.inr ⟨h.symm, h'⟩)
    · exact Or.inl (Or.inl h)⟩

instance : IsTrans (Nat × ℚ) rge :=
  ⟨fun a b c hab hbc => by
    rcases hab with h1 | ⟨h1, h1'⟩ <;> rcases hbc with h2 | ⟨h2, h2'⟩
    · exact Or.inl (h2.trans h1)
    · exact Or.inl (h2 ▸ h1)
    · exact Or.inl (h1 ▸ h2)
    · exact Or.inr ⟨h1.trans h2, h1'.trans h2'⟩⟩

instance : IsAntisymm (Nat × ℚ) rge :=
  ⟨fun a b hab hba => by
    rcases hab with h1 | ⟨h1, h1'⟩
    · rcases hba with h2 | ⟨h2, h2'⟩
      · exact absurd (h1.trans h2) (lt_irrefl _)
      · exact absurd h1 (h2 ▸ lt_irrefl _)
    · rcases hba with h2 | ⟨h2, h2'⟩
      · exact absurd h2 (h1 ▸ lt_irrefl _)
      · exact Prod.ext (Nat.le_antisymm h1' h2') h1⟩

/-- The slots of the flat index paired with their similarity score against a
(already normalised) query. -/
def scoredSlots (vecs : List (List ℚ)) (q : List ℚ) : List (Nat × ℚ) :=
  vecs.enum.map fun p => (p.1, dotQ q p.2)

/-- Model of `faiss.IndexFlatIP.search` on a query row: the `k` best slots by
inner product, ordered by decreasing score and, among equal scores, by
ascending slot id (the deterministic exact search of the flat index; the code
always passes `k ≤ ntotal`, so no `-1` padding occurs). -/
def faissSearch (vecs : List (List ℚ)) (q : List ℚ) (k : Nat) : List (Nat × ℚ) :=
  (List.insertionSort rge (scoredSlots vecs q)).take k

/-- The per-hit post-processing of `FAISSVectorStore.search`: keep a slot only
if `index_to_id` knows it and the stored full id carries the collection
prefix, and strip that prefix. -/
def postFilter (s : Store) (nm : String) (p : Nat × ℚ) : Option (String × ℚ) :=
  match lookupD s.index_to_id p.1 with
  | none => none
  | some fid =>
    if strStartsWith fid (nm ++ ":") then
      some (strDropLen fid (nm ++ ":").length, p.2)
    else none

/-- `FAISSVectorStore.search`: empty-index early return; normalise the query;
`self.index.search(q, min(top_k, ntotal))`; keep and strip the hits of the
requested collection. -/
def Store.search (normalize : List ℚ → List ℚ) (s : Store) (nm : String)
    (q : List ℚ) (top_k : Nat) : List (String × ℚ) :=
  if s.vecs.length = 0 then []
  else
    (faissSearch s.vecs (normalize q) (min top_k s.vecs.length)).filterMap
      (postFilter s nm)

/-- The mapping-table invariant of §3/§4.1, together with the auxiliary facts
that make it inductive: the occupied slots are exactly the keys of
`index_to_id`; `id_to_index` is injective; the two mappings are mutually
consistent. -/
structure StoreInv (s : Store) : Prop where
  slots : ∀ i, (lookupD s.index_to_id i).isSome ↔ i < s.vecs.length
  idInj : ∀ f1 f2 j, lookupD s.id_to_index f1 = some j →
      lookupD s.id_to_index f2 = some j → f1 = f2
  idIdx : ∀ f j, lookupD s.id_to_index f = some j →
      lookupD s.index_to_id j = some f
  idxId : ∀ i f, lookupD s.index_to_id i = some f →
      (lookupD s.id_to_index f).isSome

/-- The states reachable by any sequence of `upsert` and `delete` calls from a
fresh store, keeping the state a failed `upsert` leaves behind as well. -/
inductive Reach : Store → Prop where
  | empty (d : Nat) : Reach (emptyStore d)
  | upsert (normalize : List ℚ → List ℚ) (nm : String) (ids : List String)
      (vectors : List (List ℚ)) {s : Store} (h : Reach s) :
      Reach (Store.upsert normalize s nm ids vectors).state
  | del (nm : String) (ids : List String) {s : Store} (h : Reach s) :
      Reach (s.delete nm ids)

/-- Strict version of the ranking order: on distinct slots, `rge` refines to
strictly-decreasing score or strictly-increasing slot among ties. -/
def rgt (a b : Nat × ℚ) : Prop := b.2 < a.2 ∨ (a.2 = b.2 ∧ a.1 < b.1)

/-- `[a, a+1, ..., a+k-1]`, used to reason about `List.range` with an offset. -/
def rangeD : Nat → Nat → List Nat
  | _, 0 => []
  | a, Nat.succ k => a :: rangeD (a + 1) k

/-- The number of elements of `KS` smaller than `i`: the new slot number of
original slot `i` after the compaction that keeps exactly the slots of `KS`. -/
def cntLt (KS : List Nat) (i : Nat) : Nat :=
  (KS.filter fun x => decide (x < i)).length

/-- The physical index never stores the same full id in two slots.  This holds
in every store driven with per-collection-unique external IDs (§3) and is the
hypothesis under which deletion removes exactly the requested documents. -/
def SlotInj (s : Store) : Prop :=
  ∀ i1 i2 f, lookupD s.index_to_id i1 = some f →
    lookupD s.index_to_id i2 = some f → i1 = i2

/-- The `indices_to_remove` list collected by `delete`. -/
def deletedSlots (s : Store) (nm : String) (ids : List String) : List Nat :=
  (delLoop nm s ids).1

/-- The slots surviving a `delete`, in ascending (original) slot order. -/
def keptSlots (s : Store) (nm : String) (ids : List String) : List Nat :=
  (List.range s.vecs.length).filter fun i => decide (i ∉ deletedSlots s nm ids)

/-- The fused score of one document id in `LLMAgentService.ask` (step 4):
`0.6*faiss + 0.4*es` when both sources returned it, the FAISS score alone when
only FAISS did, `0.4*es` when only the lexical engine did. -/
def fuseScore (faissMap esMap : List (String × ℚ)) (did : String) : ℚ :=
  match lookupD faissMap did, lookupD esMap did with
  | some fa, some es => (0.6 : ℚ) * fa + (0.4 : ℚ) * es
  | some fa, none => fa
  | none, some es => (0.4 : ℚ) * es
  | none, none => (0.4 : ℚ) * 0

/-- The union `set(faiss_map.keys()) | set(es_map.keys())` as a duplicate-free
list.  Python iterates a set in an unspecified order; only the order of
score ties depends on it, which the contract leaves unspecified, so a
canonical enumeration is used. -/
def fusedIds (faissMap esMap : List (String × ℚ)) : List String :=
  faissMap.map Prod.fst ++
    (esMap.map Prod.fst).filter fun k => decide (lookupD faissMap k = none)

/-- The un-truncated fused list built by the loop over `fused_ids`. -/
def fuseAll (faissMap esMap : List (String × ℚ)) : List (String × ℚ) :=
  (fusedIds faissMap esMap).map fun did => (did, fuseScore faissMap esMap did)

/-- Descending order by fused score (`fused.sort(key=..., reverse=True)`). -/
def rgeS (a b : String × ℚ) : Prop := b.2 ≤ a.2

instance : DecidableRel rgeS := fun a b =>
  decidable_of_iff (b.2 ≤ a.2) Iff.rfl

instance : IsTotal (String × ℚ) rgeS :=
  ⟨fun a b => le_total b.2 a.2⟩

instance : IsTrans (String × ℚ) rgeS :=
  ⟨fun _ _ _ hab hbc => le_trans hbc hab⟩

/-- Steps 4 of `LLMAgentService.ask`: fuse the two score maps, sort descending
by fused score, truncate to `top_k` (`matches = fused[:top_k]`). -/
def fuse (faissMap esMap : List (String × ℚ)) (top_k : Nat) :
    List (String × ℚ) :=
  (List.insertionSort rgeS (fuseAll faissMap esMap)).take top_k

/-- A job-offer record as consumed by `TextProcessor.prepare_job_offer_text`.
Missing dict keys and empty strings are both falsy in the source's
`job_data.get(...)` tests, so optional text fields are plain strings with `""`
for "absent"; `required_skills` is the list of `skill.get('name', '')`
values. -/
structure JobOfferData where
  title : String
  description : String
  required_skills : List String
  seniority : String
  location : String
  is_remote : Bool
deriving DecidableEq

/-- `TextProcessor.prepare_job_offer_text`, line by line: conditionally append
each segment to `parts`, then `" ".join(parts)`. -/
def prepare_job_offer_text (d : JobOfferData) : String :=
  let parts : List String := []
  let parts := if d.title ≠ "" then parts ++ [d.title] else parts
  let parts := if d.description ≠ "" then parts ++ [d.description] else parts
  let skills_text := String.intercalate (" ") d.required_skills
  let parts := if d.required_skills ≠ [] then
      (if skills_text ≠ "" then
        parts ++ [("Compétences requises: ") ++ skills_text] else parts)
    else parts
  let parts := if d.seniority ≠ "" then
      parts ++ [("Niveau: ") ++ d.seniority] else parts
  let parts := if d.location ≠ "" then
      parts ++ [("Localisation: ") ++ d.location] else parts
  let parts := if d.is_remote then parts ++ [("Télétravail possible")] else parts
  String.intercalate (" ") parts

/-- The §4.3 projection contract for a job-offer entity, restated
declaratively with the labels the code actually emits: in this fixed order,
the title, the description, a prefixed skills segment, a prefixed seniority
segment, a prefixed location segment and the remote-work marker, each segment
present only when its field is set, all joined by single spaces. -/
def jobOfferTextSpec (d : JobOfferData) : String :=
  String.intercalate (" ") (List.flatten
    [if d.title ≠ "" then [d.title] else [],
     if d.description ≠ "" then [d.description] else [],
     if d.required_skills ≠ [] ∧ String.intercalate (" ") d.required_skills ≠ ""
       then [("Compétences requises: ") ++
         String.intercalate (" ") d.required_skills] else [],
     if d.seniority ≠ "" then [("Niveau: ") ++ d.seniority] else [],
     if d.location ≠ "" then [("Localisation: ") ++ d.location] else [],
     if d.is_remote then [("Télétravail possible")] else []])

/-- One prior-role fragment of a candidate record. -/
structure ExperienceData where
  title : String
  company : String
  description : String
deriving DecidableEq

/-- One education fragment of a candidate record. -/
structure EducationData where
  school : String
  degree : String
  field_of_study : String
deriving DecidableEq

/-- A candidate record as consumed by `TextProcessor.prepare_candidate_text`;
`resumes` holds each resume's `parsed_text` (`""` when absent). -/
structure CandidateData where
  headline : String
  summary : String
  skills : List String
  experiences : List ExperienceData
  educations : List EducationData
  resumes : List String
deriving DecidableEq

/-- The `exp_parts` list of one experience. -/
def expFragment (e : ExperienceData) : List String :=
  (if e.title ≠ "" then [e.title] else []) ++
    (if e.company ≠ "" then [e.company] else []) ++
    (if e.description ≠ "" then [e.description] else [])

/-- The `edu_parts` list of one education entry. -/
def eduFragment (e : EducationData) : List String :=
  (if e.school ≠ "" then [e.school] else []) ++
    (if e.degree ≠ "" then [e.degree] else []) ++
    (if e.field_of_study ≠ "" then [e.field_of_study] else [])

/-- `TextProcessor.prepare_candidate_text`, line by line. -/
def prepare_candidate_text (c : CandidateData) : String :=
  let parts : List String := []
  let parts := if c.headline ≠ "" then parts ++ [c.headline] else parts
  let parts := if c.summary ≠ "" then parts ++ [c.summary] else parts
  let skills_text := String.intercalate (" ") c.skills
  let parts := if c.skills ≠ [] then
      (if skills_text ≠ "" then
        parts ++ [("Compétences: ") ++ skills_text] else parts)
    else parts
  let exp_texts := c.experiences.filterMap fun e =>
    if expFragment e ≠ [] then
      some (String.intercalate (" ") (expFragment e)) else none
  let parts := if c.experiences ≠ [] then
      (if exp_texts ≠ [] then
        parts ++ [("Expériences: ") ++ String.intercalate (" ") exp_texts]
      else parts)
    else parts
  let edu_texts := c.educations.filterMap fun e =>
    if eduFragment e ≠ [] then
      some (String.intercalate (" ") (eduFragment e)) else none
  let parts := if c.educations ≠ [] then
      (if edu_texts ≠ [] then
        parts ++ [("Formation: ") ++ String.intercalate (" ") edu_texts]
      else parts)
    else parts
  let parts := parts ++ c.resumes.filterMap fun t =>
    if t ≠ "" then some (("CV: ") ++ t) else none
  String.intercalate (" ") parts

/-- Python `str.strip()` on the texts the batch loop tests for truthiness:
drop leading and trailing whitespace characters. -/
def pyStrip (s : String) : String :=
  ⟨((s.data.dropWhile Char.isWhitespace).reverse.dropWhile
      Char.isWhitespace).reverse⟩

/-- `MatchingService.batch_index_candidates` / `batch_index_job_offers`,
generic in the projection function (the two methods are textually identical up
to it): phase one partitions the inputs, recording an immediate `False` for
every entity whose projected text is empty after `strip()` and queueing the
rest; if anything was queued, the queued texts go through one batched
embedding call (`embedRes`; `none` models a raised embedding error) followed
by one multi-vector `upsert`, and every queued id is then marked `True`, or
`False` if the embedding or the upsert raised.  `batchPhase1` is the
partitioning loop; `batch_index` is the whole method. -/
def batchPhase1 {E : Type} (prepare : E → String)
    (data : List (String × E)) :
    List (String × Bool) × List String × List String :=
  -- the partitioning loop (phase one): (results, texts, ids)
  data.foldl
    (fun acc p =>
      if pyStrip (prepare p.2) ≠ "" then
        (acc.1, acc.2.1 ++ [prepare p.2], acc.2.2 ++ [p.1])
      else (updD acc.1 p.1 false, acc.2.1, acc.2.2))
    (([] : List (String × Bool)), ([] : List String), ([] : List String))

def batch_index {E : Type} (prepare : E → String)
    (normalize : List ℚ → List ℚ) (s : Store) (nm : String)
    (data : List (String × E)) (embedRes : Option (List (List ℚ))) :
    List (String × Bool) × Store :=
  let phase1 := batchPhase1 prepare data
  let results := phase1.1
  let texts := phase1.2.1
  let ids := phase1.2.2
  if texts ≠ [] then
    match embedRes with
    | none => (ids.foldl (fun r i => updD r i false) results, s)
    | some embeddings =>
      match Store.upsert normalize s nm ids embeddings with
      | .ok s2 => (ids.foldl (fun r i => updD r i true) results, s2)
      | .err _ s2 => (ids.foldl (fun r i => updD r i false) results, s2)
  else (results, s)

/-- `MatchingService.batch_index_candidates`. -/
def batch_index_candidates (normalize : List ℚ → List ℚ) (s : Store)
    (data : List (String × CandidateData))
    (embedRes : Option (List (List ℚ))) : List (String × Bool) × Store :=
  batch_index prepare_candidate_text normalize s ("candidates") data embedRes

/-- `MatchingService.batch_index_job_offers`. -/
def batch_index_job_offers (normalize : List ℚ → List ℚ) (s : Store)
    (data : List (String × JobOfferData))
    (embedRes : Option (List (List ℚ))) : List (String × Bool) × Store :=
  batch_index prepare_job_offer_text normalize s ("job_offers") data embedRes

/-- The ids queued for the batched embedding call (non-empty projected
text), in input order. -/
def batchedIds {E : Type} (prepare : E → String)
    (data : List (String × E)) : List String :=
  (data.filter fun p => decide (pyStrip (prepare p.2) ≠ "")).map Prod.fst

/-- The ids rejected in phase one (empty projected text), in input order. -/
def emptyTextIds {E : Type} (prepare : E → String)
    (data : List (String × E)) : List String :=
  (data.filter fun p => decide (¬ pyStrip (prepare p.2) ≠ "")).map Prod.fst

/-- The success flag that `batch_index` assigns to every queued id: `False`
when the embedding call raised, otherwise `True` exactly when the single
multi-vector `upsert` returned normally. -/
def batchFlag {E : Type} (prepare : E → String) (normalize : List ℚ → List ℚ)
    (s : Store) (nm : String) (data : List (String × E))
    (embedRes : Option (List (List ℚ))) : Bool :=
  match embedRes with
  | none => false
  | some embeddings =>
    match Store.upsert normalize s nm (batchedIds prepare data) embeddings with
    | .ok _ => true
    | .err _ _ => false

/-- A small populated store used to witness the store theorems: a fresh
2-entry collection `c` over dimension 3 (the identity stands in for the
normalisation map, which fixes these unit vectors anyway). -/
def demoStore : Store :=
  (Store.upsert (fun v => v) (emptyStore 3) ("c") (["a", "b"])
    ([[1, 0, 0], [0, 1, 0]])).state

theorem lookupD_append {α β : Type} [DecidableEq α] (d e : List (α × β)) (k : α) :
    lookupD (d ++ e) k =
      match lookupD d k with
      | some v => some v
      | none => lookupD e k := by
  induction d with
  | nil => simp [lookupD]
  | cons p rest ih =>
    by_cases hp : p.1 = k
    · simp [lookupD, hp]
    · simp [lookupD, hp, ih]

theorem lookupD_delD {α β : Type} [DecidableEq α] (d : List (α × β)) (k k' : α) :
    lookupD (delD d k) k' = if k' = k then none else lookupD d k' := by
  induction d with
  | nil => simp [lookupD, delD]
  | cons p rest ih =>
    by_cases hp : p.1 = k
    · simp only [delD, if_pos hp, ih]
      by_cases h : k' = k
      · simp [h]
      · have hpk : ¬ p.1 = k' := by rw [hp]; intro h'; exact h h'.symm
        simp [h, lookupD, hpk]
    · simp only [delD, if_neg hp, lookupD, ih]
      by_cases hpk : p.1 = k'
      · have h : ¬ k' = k := fun hh => hp (hpk.trans hh)
        simp [hpk, h]
      · simp [hpk]

theorem lookupD_updD {α β : Type} [DecidableEq α] (d : List (α × β)) (k k' : α)
    (v : β) :
    lookupD (updD d k v) k' = if k' = k then some v else lookupD d k' := by
  unfold updD
  rw [lookupD_append]
  by_cases h : k' = k
  · simp [lookupD_delD, h, lookupD]
  · simp only [lookupD_delD, if_neg h]
    cases lookupD d k' with
    | some v => simp
    | none =>
      have hk : ¬ k = k' := fun h' => h h'.symm
      simp [lookupD, hk]

theorem lookupD_isSome_of_mem {α β : Type} [DecidableEq α]
    {d : List (α × β)} {p : α × β} (h : p ∈ d) : (lookupD d p.1).isSome := by
  induction d with
  | nil => cases h
  | cons q rest ih =>
    rcases List.mem_cons.mp h with h | h
    · subst h; simp [lookupD]
    · by_cases hq : q.1 = p.1
      · simp [lookupD, hq]
      · simpa [lookupD, hq] using ih h

theorem lookupD_mem {α β : Type} [DecidableEq α]
    {d : List (α × β)} {k : α} {v : β} (h : lookupD d k = some v) : (k, v) ∈ d := by
  induction d with
  | nil => simp [lookupD] at h
  | cons p rest ih =>
    by_cases hp : p.1 = k
    · simp only [lookupD, if_pos hp] at h
      injection h with h
      have : p = (k, v) := by
        cases p
        simp only [Prod.mk.injEq]
        exact ⟨hp, h⟩
      rw [← this]
      exact List.mem_cons_self _ _
    · simp only [lookupD, if_neg hp] at h
      exact List.mem_cons_of_mem _ (ih h)

theorem isPrefixOf_append_drop : ∀ (p f : List Char), p.isPrefixOf f = true →
    p ++ f.drop p.length = f
  | [], f, _ => by simp
  | a :: p, [], h => by simp [List.isPrefixOf] at h
  | a :: p, b :: f, h => by
    simp only [List.isPrefixOf, Bool.and_eq_true, beq_iff_eq] at h
    simp only [List.length_cons, List.drop_succ_cons, List.cons_append, h.1]
    rw [isPrefixOf_append_drop p f h.2]

theorem strStartsWith_append_drop (s p : String)
    (h : strStartsWith s p = true) : p ++ strDropLen s p.length = s := by
  apply String.ext
  show p.data ++ (strDropLen s p.length).data = s.data
  have : (strDropLen s p.length).data = s.data.drop p.data.length := rfl
  rw [this]
  exact isPrefixOf_append_drop p.data s.data h

theorem fullId_inj_doc {nm a b : String} (h : fullId nm a = fullId nm b) :
    a = b := by
  apply String.ext
  have hd : (fullId nm a).data = (fullId nm b).data := by rw [h]
  simp only [fullId] at hd
  have ha : (nm ++ ":" ++ a).data = (nm ++ ":").data ++ a.data := rfl
  have hb : (nm ++ ":" ++ b).data = (nm ++ ":").data ++ b.data := rfl
  rw [ha, hb] at hd
  exact List.append_cancel_left hd

theorem strStartsWith_fullId (nm doc : String) :
    strStartsWith (fullId nm doc) (nm ++ ":") = true := by
  show (nm ++ ":").data.isPrefixOf ((nm ++ ":") ++ doc).data = true
  have : ((nm ++ ":") ++ doc).data = (nm ++ ":").data ++ doc.data := rfl
  rw [this]
  induction (nm ++ ":").data with
  | nil => simp [List.isPrefixOf]
  | cons c cs ih => simp [List.isPrefixOf, ih]

theorem strDropLen_fullId (nm doc : String) :
    strDropLen (fullId nm doc) (nm ++ ":").length = doc := by
  apply String.ext
  show ((nm ++ ":") ++ doc).data.drop (nm ++ ":").data.length = doc.data
  have : ((nm ++ ":") ++ doc).data = (nm ++ ":").data ++ doc.data := rfl
  rw [this, List.drop_left]

theorem lookupD_enumD (l : List String) (a j : Nat) :
    lookupD (enumD a l) j = if a ≤ j then l[j - a]? else none := by
  induction l generalizing a with
  | nil => simp [enumD, lookupD]
  | cons f rest ih =>
    simp only [enumD, lookupD]
    by_cases h : a = j
    · subst h
      simp
    · rw [if_neg h, ih]
      by_cases h2 : a ≤ j
      · have h3 : a + 1 ≤ j := by omega
        have h4 : j - a = (j - (a + 1)) + 1 := by omega
        simp [h2, h3, h4]
      · have h3 : ¬ a + 1 ≤ j := by omega
        simp [h2, h3]

theorem mem_enumD {l : List String} {a j : Nat} {f : String}
    (h : (j, f) ∈ enumD a l) : a ≤ j ∧ j - a < l.length ∧ l[j - a]? = some f := by
  induction l generalizing a with
  | nil => cases h
  | cons g rest ih =>
    rcases List.mem_cons.mp h with h | h
    · injection h with h1 h2
      subst h1; subst h2
      simp
    · obtain ⟨h1, h2, h3⟩ := ih h
      have ha : a ≤ j := by omega
      have hd : j - a = (j - (a + 1)) + 1 := by omega
      refine ⟨ha, by simpa [hd] using Nat.succ_lt_succ h2, ?_⟩
      rw [hd]
      simpa using h3

theorem enumD_mem_of_lt {l : List String} {a j : Nat} (h : j < l.length) :
    ∀ f, l[j]? = some f → (a + j, f) ∈ enumD a l := by
  induction l generalizing a j with
  | nil => simp at h
  | cons g rest ih =>
    intro f hf
    cases j with
    | zero =>
      simp only [List.getElem?_cons_zero, Option.some.injEq] at hf
      subst hf
      simp [enumD]
    | succ j =>
      simp only [List.getElem?_cons_succ] at hf
      have hlen : j < rest.length := by
        simpa using Nat.lt_of_succ_lt_succ h
      have hmem := ih (a := a + 1) hlen f hf
      have harith : a + (j + 1) = (a + 1) + j := by omega
      rw [harith]
      exact List.mem_cons_of_mem _ hmem

theorem lookupD_invertD_aux (l : List (Nat × String)) :
    ∀ (acc : List (String × Nat)) (f : String) (j : Nat),
      lookupD (l.foldl (fun acc p => updD acc p.2 p.1) acc) f = some j →
      (j, f) ∈ l ∨ lookupD acc f = some j := by
  induction l with
  | nil => intro acc f j h; exact Or.inr h
  | cons p rest ih =>
    intro acc f j h
    rcases ih _ f j h with h | h
    · exact Or.inl (List.mem_cons_of_mem _ h)
    · rw [lookupD_updD] at h
      by_cases hf : f = p.2
      · rw [if_pos hf] at h
        injection h with h
        left
        rw [hf, ← h]
        exact List.mem_cons_self _ _
      · rw [if_neg hf] at h
        exact Or.inr h

theorem lookupD_invertD_mem {l : List (Nat × String)} {f : String} {j : Nat}
    (h : lookupD (invertD l) f = some j) : (j, f) ∈ l := by
  rcases lookupD_invertD_aux l [] f j h with h | h
  · exact h
  · simp [lookupD] at h

theorem invertD_isSome_aux (l : List (Nat × String)) :
    ∀ (acc : List (String × Nat)) (f : String),
      (f ∈ l.map Prod.snd ∨ (lookupD acc f).isSome) →
      (lookupD (l.foldl (fun acc p => updD acc p.2 p.1) acc) f).isSome := by
  induction l with
  | nil =>
    intro acc f h
    rcases h with h | h
    · simp at h
    · exact h
  | cons p rest ih =>
    intro acc f h
    apply ih
    by_cases hf : f = p.2
    · right
      rw [lookupD_updD, if_pos hf]
      rfl
    · rcases h with h | h
      · rcases List.mem_map.mp h with ⟨q, hq, hq2⟩
        rcases List.mem_cons.mp hq with hq | hq
        · exact absurd (hq2.symm.trans (by rw [hq])) hf
        · exact Or.inl (List.mem_map.mpr ⟨q, hq, hq2⟩)
      · right
        rw [lookupD_updD, if_neg hf]
        exact h

theorem invertD_isSome {l : List (Nat × String)} {f : String}
    (h : f ∈ l.map Prod.snd) : (lookupD (invertD l) f).isSome :=
  invertD_isSome_aux l [] f (Or.inl h)

theorem delLoop_frame (nm : String) : ∀ (ids : List String) (s : Store),
    (delLoop nm s ids).2.dimension = s.dimension ∧
    (delLoop nm s ids).2.vecs = s.vecs ∧
    (delLoop nm s ids).2.diskVecs = s.diskVecs ∧
    (delLoop nm s ids).2.diskIdToIndex = s.diskIdToIndex ∧
    (delLoop nm s ids).2.diskIndexToId = s.diskIndexToId
  | [], s => by simp [delLoop]
  | doc :: rest, s => by
    simp only [delLoop]
    cases lookupD s.id_to_index (fullId nm doc) with
    | some fidx => exact delLoop_frame nm rest _
    | none => exact delLoop_frame nm rest s

theorem delLoop_id_to_index (nm : String) : ∀ (ids : List String) (s : Store)
    (f : String),
    lookupD (delLoop nm s ids).2.id_to_index f =
      if f ∈ ids.map (fullId nm) then none else lookupD s.id_to_index f
  | [], s, f => by simp [delLoop]
  | doc :: rest, s, f => by
    cases hl : lookupD s.id_to_index (fullId nm doc) with
    | some fidx =>
      simp only [delLoop, hl]
      rw [delLoop_id_to_index nm rest _ f]
      simp only [lookupD_delD]
      by_cases h1 : f ∈ rest.map (fullId nm)
      · simp [h1]
      · by_cases h2 : f = fullId nm doc
        · simp [h1, h2]
        · have hno : ¬ f ∈ (doc :: rest).map (fullId nm) := by
            simp only [List.map_cons, List.mem_cons]
            rintro (h | h)
            · exact h2 h
            · exact h1 h
          simp [h1, h2, hno]
    | none =>
      simp only [delLoop, hl]
      rw [delLoop_id_to_index nm rest s f]
      by_cases h1 : f ∈ rest.map (fullId nm)
      · simp [h1]
      · by_cases h2 : f = fullId nm doc
        · subst h2
          simp [h1, hl]
        · have hno : ¬ f ∈ (doc :: rest).map (fullId nm) := by
            simp only [List.map_cons, List.mem_cons]
            rintro (h | h)
            · exact h2 h
            · exact h1 h
          simp [h1, h2, hno]

theorem delLoop_index_to_id (nm : String) : ∀ (ids : List String) (s : Store)
    (i : Nat),
    lookupD (delLoop nm s ids).2.index_to_id i =
      if i ∈ (delLoop nm s ids).1 then none else lookupD s.index_to_id i
  | [], s, i => by simp [delLoop]
  | doc :: rest, s, i => by
    cases hl : lookupD s.id_to_index (fullId nm doc) with
    | some fidx =>
      simp only [delLoop, hl]
      rw [delLoop_index_to_id nm rest _ i]
      simp only [lookupD_delD]
      by_cases h1 : i ∈ (delLoop nm { s with
          id_to_index := delD s.id_to_index (fullId nm doc),
          index_to_id := delD s.index_to_id fidx } rest).1
      · simp [h1, List.mem_cons]
      · by_cases h2 : i = fidx
        · simp [h1, h2, List.mem_cons]
        · simp [h1, h2, List.mem_cons]
    | none =>
      simp only [delLoop, hl]
      exact delLoop_index_to_id nm rest s i

theorem delLoop_removed (nm : String) : ∀ (ids : List String) (s : Store)
    (i : Nat),
    i ∈ (delLoop nm s ids).1 ↔
      ∃ d ∈ ids, lookupD s.id_to_index (fullId nm d) = some i
  | [], s, i => by simp [delLoop]
  | doc :: rest, s, i => by
    cases hl : lookupD s.id_to_index (fullId nm doc) with
    | some fidx =>
      simp only [delLoop, hl, List.mem_cons]
      rw [delLoop_removed nm rest _ i]
      constructor
      · rintro (h | ⟨d, hd, hlook⟩)
        · exact ⟨doc, Or.inl rfl, by rw [hl, h]⟩
        · rw [lookupD_delD] at hlook
          by_cases h2 : fullId nm d = fullId nm doc
          · rw [if_pos h2] at hlook; cases hlook
          · rw [if_neg h2] at hlook
            exact ⟨d, Or.inr hd, hlook⟩
      · rintro ⟨d, hd, hlook⟩
        rcases hd with hd | hd
        · subst hd
          rw [hl] at hlook
          injection hlook with hlook
          exact Or.inl hlook.symm
        · by_cases h2 : fullId nm d = fullId nm doc
          · rw [h2, hl] at hlook
            injection hlook with hlook
            exact Or.inl hlook.symm
          · refine Or.inr ⟨d, hd, ?_⟩
            rw [lookupD_delD, if_neg h2]
            exact hlook
    | none =>
      simp only [delLoop, hl]
      rw [delLoop_removed nm rest s i]
      constructor
      · rintro ⟨d, hd, hlook⟩
        exact ⟨d, List.mem_cons_of_mem _ hd, hlook⟩
      · rintro ⟨d, hd, hlook⟩
        rcases List.mem_cons.mp hd with hd | hd
        · subst hd
          rw [hl] at hlook; cases hlook
        · by_cases h2 : fullId nm d = fullId nm doc
          · rw [h2, hl] at hlook; cases hlook
          · exact ⟨d, hd, hlook⟩

theorem delLoop_nil_state (nm : String) : ∀ (ids : List String) (s : Store),
    (delLoop nm s ids).1 = [] → (delLoop nm s ids).2 = s
  | [], s, _ => rfl
  | doc :: rest, s, h => by
    simp only [delLoop] at h ⊢
    cases hl : lookupD s.id_to_index (fullId nm doc) with
    | some fidx => rw [hl] at h; cases h
    | none =>
      rw [hl] at h
      exact delLoop_nil_state nm rest s h

theorem addMaps_frame (nm : String) : ∀ (ids : List String) (s : Store)
    (start : Nat),
    (addMaps nm s ids start).dimension = s.dimension ∧
    (addMaps nm s ids start).vecs = s.vecs ∧
    (addMaps nm s ids start).diskVecs = s.diskVecs ∧
    (addMaps nm s ids start).diskIdToIndex = s.diskIdToIndex ∧
    (addMaps nm s ids start).diskIndexToId = s.diskIndexToId
  | [], s, start => by simp [addMaps]
  | doc :: rest, s, start => by
    simp only [addMaps]
    exact addMaps_frame nm rest _ _

theorem addMaps_index_to_id (nm : String) : ∀ (ids : List String) (s : Store)
    (start i : Nat),
    lookupD (addMaps nm s ids start).index_to_id i =
      if start ≤ i ∧ i < start + ids.length then
        some (fullId nm (ids.getD (i - start) ("")))
      else lookupD s.index_to_id i
  | [], s, start, i => by
    simp only [addMaps, List.length_nil, Nat.add_zero]
    rw [if_neg (by omega)]
  | doc :: rest, s, start, i => by
    simp only [addMaps]
    rw [addMaps_index_to_id nm rest _ (start + 1) i]
    by_cases h1 : start + 1 ≤ i ∧ i < start + 1 + rest.length
    · have h2 : start ≤ i ∧ i < start + (rest.length + 1) := by omega
      have h3 : i - start = (i - (start + 1)) + 1 := by omega
      simp only [if_pos h1, List.length_cons, if_pos h2, h3, List.getD_cons_succ]
    · simp only [if_neg h1, lookupD_updD]
      by_cases h2 : i = start
      · have h3 : start ≤ i ∧ i < start + (rest.length + 1) := by omega
        have h4 : i - start = 0 := by omega
        simp [h2, h3, h4]
      · have h3 : ¬ (start ≤ i ∧ i < start + (rest.length + 1)) := by omega
        simp [h2, h3]

theorem addMaps_id_to_index_char (nm : String) : ∀ (ids : List String)
    (s : Store) (start : Nat) (f : String) (j : Nat),
    lookupD (addMaps nm s ids start).id_to_index f = some j →
      (lookupD s.id_to_index f = some j ∧ f ∉ ids.map (fullId nm)) ∨
      (start ≤ j ∧ j < start + ids.length ∧ f = fullId nm (ids.getD (j - start) ("")))
  | [], s, start, f, j => by
    intro h
    exact Or.inl ⟨by simpa [addMaps] using h, by simp⟩
  | doc :: rest, s, start, f, j => by
    intro h
    simp only [addMaps] at h
    rcases addMaps_id_to_index_char nm rest _ (start + 1) f j h with ⟨h1, h2⟩ | ⟨h1, h2, h3⟩
    · rw [lookupD_updD] at h1
      by_cases hf : f = fullId nm doc
      · rw [if_pos hf] at h1
        injection h1 with h1
        refine Or.inr ⟨by omega, by simp; omega, ?_⟩
        have : j - start = 0 := by omega
        rw [this, List.getD_cons_zero]
        exact hf
      · rw [if_neg hf] at h1
        refine Or.inl ⟨h1, ?_⟩
        simp only [List.map_cons, List.mem_cons]
        rintro (hc | hc)
        · exact hf hc
        · exact h2 hc
    · refine Or.inr ⟨by omega, by simp; omega, ?_⟩
      have hj : j - start = (j - (start + 1)) + 1 := by omega
      rw [hj, List.getD_cons_succ]
      exact h3

theorem addMaps_id_to_index_isSome (nm : String) : ∀ (ids : List String)
    (s : Store) (start : Nat) (f : String),
    ((lookupD s.id_to_index f).isSome ∨ f ∈ ids.map (fullId nm)) →
    (lookupD (addMaps nm s ids start).id_to_index f).isSome
  | [], s, start, f => by
    intro h
    rcases h with h | h
    · simpa [addMaps] using h
    · simp at h
  | doc :: rest, s, start, f => by
    intro h
    simp only [addMaps]
    apply addMaps_id_to_index_isSome nm rest _ (start + 1) f
    by_cases hf : f = fullId nm doc
    · left
      rw [lookupD_updD, if_pos hf]
      rfl
    · rcases h with h | h
      · left
        rw [lookupD_updD, if_neg hf]
        exact h
      · right
        simp only [List.map_cons, List.mem_cons] at h
        rcases h with h | h
        · exact absurd h hf
        · exact h

theorem emptyStore_inv (d : Nat) : StoreInv (emptyStore d) := by
  constructor
  · intro i
    simp [emptyStore, lookupD]
  · intro f1 f2 j h
    simp [emptyStore, lookupD] at h
  · intro f j h
    simp [emptyStore, lookupD] at h
  · intro i f h
    simp [emptyStore, lookupD] at h

theorem enumD_map_snd : ∀ (a : Nat) (l : List String),
    (enumD a l).map Prod.snd = l
  | _, [] => rfl
  | a, f :: rest => by
    simp only [enumD, List.map_cons, List.cons.injEq]
    exact ⟨trivial, enumD_map_snd (a + 1) rest⟩

theorem rebuild_inv (s : Store) (toRemove : List Nat) (h : toRemove ≠ []) :
    StoreInv (s.rebuild toRemove) := by
  unfold Store.rebuild
  rw [if_neg h]
  by_cases hk : rebuildKept s toRemove = []
  · rw [if_pos hk]
    constructor
    · intro i
      simp [lookupD]
    · intro f1 f2 j hh
      simp [lookupD] at hh
    · intro f j hh
      simp [lookupD] at hh
    · intro i f hh
      simp [lookupD] at hh
  · rw [if_neg hk]
    constructor
    · intro i
      simp only [lookupD_enumD, Nat.zero_le, if_pos, Nat.sub_zero,
        List.length_map]
      constructor
      · intro hh
        rcases Option.isSome_iff_exists.mp hh with ⟨f, hf⟩
        rcases List.getElem?_eq_some.mp hf with ⟨hlt, _⟩
        simpa using hlt
      · intro hh
        have hlt : i < ((rebuildKept s toRemove).map Prod.snd).length := by
          simpa using hh
        rw [List.getElem?_eq_getElem hlt]
        rfl
    · intro f1 f2 j h1 h2
      have m1 := mem_enumD (lookupD_invertD_mem h1)
      have m2 := mem_enumD (lookupD_invertD_mem h2)
      have e1 := m1.2.2
      have e2 := m2.2.2
      rw [e1] at e2
      injection e2
    · intro f j h1
      have m1 := mem_enumD (lookupD_invertD_mem h1)
      simp only [lookupD_enumD, Nat.zero_le, if_pos, Nat.sub_zero]
      simpa using m1.2.2
    · intro i f h1
      rw [lookupD_enumD] at h1
      simp only [Nat.zero_le, if_pos, Nat.sub_zero] at h1
      have hmem : f ∈ (rebuildKept s toRemove).map Prod.snd := by
        rcases List.getElem?_eq_some.mp h1 with ⟨hlt, heq⟩
        rw [← heq]
        exact List.getElem_mem hlt
      apply invertD_isSome
      rw [enumD_map_snd]
      exact hmem

theorem delete_inv {s : Store} (hI : StoreInv s) (nm : String)
    (ids : List String) : StoreInv (s.delete nm ids) := by
  unfold Store.delete
  by_cases h0 : ids = []
  · rw [if_pos h0]
    exact hI
  · rw [if_neg h0]
    by_cases h1 : (delLoop nm s ids).1 = []
    · simp only [if_pos h1, delLoop_nil_state nm ids s h1]
      exact hI
    · simp only [if_neg h1]
      exact rebuild_inv _ _ h1

theorem save_inv {s : Store} (hI : StoreInv s) : StoreInv s.save :=
  ⟨hI.slots, hI.idInj, hI.idIdx, hI.idxId⟩

theorem upsert_eq (normalize : List ℚ → List ℚ) (s : Store) (nm : String)
    (ids : List String) (vectors : List (List ℚ)) :
    Store.upsert normalize s nm ids vectors =
      if ids = [] ∨ vectors = [] then .ok s
      else if ids.length ≠ vectors.length then
        .err ("Le nombre d'IDs doit correspondre au nombre de vecteurs") s
      else if ¬ sameLengths (vectors.map normalize) then
        .err ("np.array: inhomogeneous batch") s
      else if ¬ (vectors.map normalize).all
          (fun v => v.length = (s.delete nm ids).dimension) then
        .err ("faiss add: dimension assertion") (s.delete nm ids)
      else
        .ok (addMaps nm
          { s.delete nm ids with
            vecs := (s.delete nm ids).vecs ++ vectors.map normalize }
          ids (s.delete nm ids).vecs.length).save := rfl

theorem rebuild_frame (s : Store) (toRemove : List Nat) :
    (s.rebuild toRemove).dimension = s.dimension ∧
    (s.rebuild toRemove).diskVecs = s.diskVecs ∧
    (s.rebuild toRemove).diskIdToIndex = s.diskIdToIndex ∧
    (s.rebuild toRemove).diskIndexToId = s.diskIndexToId := by
  unfold Store.rebuild
  by_cases h : toRemove = []
  · simp [h]
  · rw [if_neg h]
    by_cases hk : rebuildKept s toRemove = []
    · simp [hk]
    · simp [hk]

theorem delete_frame (s : Store) (nm : String) (ids : List String) :
    (s.delete nm ids).dimension = s.dimension ∧
    (s.delete nm ids).diskVecs = s.diskVecs ∧
    (s.delete nm ids).diskIdToIndex = s.diskIdToIndex ∧
    (s.delete nm ids).diskIndexToId = s.diskIndexToId := by
  unfold Store.delete
  by_cases h0 : ids = []
  · simp [h0]
  · rw [if_neg h0]
    by_cases h1 : (delLoop nm s ids).1 = []
    · rw [if_pos h1]
      obtain ⟨hd, _, hv, hi1, hi2⟩ := delLoop_frame nm ids s
      exact ⟨hd, hv, hi1, hi2⟩
    · rw [if_neg h1]
      obtain ⟨hd, _, hv, hi1, hi2⟩ := delLoop_frame nm ids s
      obtain ⟨rd, rv, ri1, ri2⟩ := rebuild_frame (delLoop nm s ids).2 (delLoop nm s ids).1
      exact ⟨rd.trans hd, rv.trans hv, ri1.trans hi1, ri2.trans hi2⟩

theorem upsert_state_inv (normalize : List ℚ → List ℚ) {s : Store}
    (hI : StoreInv s) (nm : String) (ids : List String)
    (vectors : List (List ℚ)) :
    StoreInv (Store.upsert normalize s nm ids vectors).state := by
  rw [upsert_eq]
  by_cases h1 : ids = [] ∨ vectors = []
  · rw [if_pos h1]; exact hI
  · rw [if_neg h1]
    by_cases h2 : ids.length ≠ vectors.length
    · rw [if_pos h2]; exact hI
    · rw [if_neg h2]
      by_cases h3 : ¬ sameLengths (vectors.map normalize)
      · rw [if_pos h3]; exact hI
      · rw [if_neg h3]
        have hI1 : StoreInv (s.delete nm ids) := delete_inv hI nm ids
        by_cases h4 : ¬ (vectors.map normalize).all
            (fun v => v.length = (s.delete nm ids).dimension)
        · rw [if_pos h4]; exact hI1
        · rw [if_neg h4]
          show StoreInv (addMaps nm
            { s.delete nm ids with
              vecs := (s.delete nm ids).vecs ++ vectors.map normalize }
            ids (s.delete nm ids).vecs.length).save
          apply save_inv
          set s1 := s.delete nm ids with hs1
          set nv := vectors.map normalize with hnv
          set s2 : Store := { s1 with vecs := s1.vecs ++ nv } with hs2
          set n := s1.vecs.length with hn
          have hm : nv.length = ids.length := by
            rw [hnv, List.length_map]
            omega
          have hvecs : (addMaps nm s2 ids n).vecs = s2.vecs :=
            (addMaps_frame nm ids s2 n).2.1
          have hlen2 : s2.vecs.length = n + ids.length := by
            rw [hs2]
            simp [hm]
          have hid2 : s2.id_to_index = s1.id_to_index := rfl
          have hidx2 : s2.index_to_id = s1.index_to_id := rfl
          have hjlt : ∀ f j, lookupD s1.id_to_index f = some j → j < n := by
            intro f j hf
            have := hI1.idIdx f j hf
            have hsome : (lookupD s1.index_to_id j).isSome := by
              rw [this]; rfl
            exact (hI1.slots j).mp hsome
          constructor
          · intro i
            rw [hvecs, hlen2, addMaps_index_to_id, hidx2]
            by_cases hr : n ≤ i ∧ i < n + ids.length
            · simp only [if_pos hr]
              constructor
              · intro _; omega
              · intro _; rfl
            · simp only [if_neg hr]
              rw [hI1.slots i]
              omega
          · intro f1 f2 j hf1 hf2
            rcases addMaps_id_to_index_char nm ids s2 n f1 j hf1 with
              ⟨ha1, _⟩ | ⟨ha1, ha2, ha3⟩ <;>
              rcases addMaps_id_to_index_char nm ids s2 n f2 j hf2 with
                ⟨hb1, _⟩ | ⟨hb1, hb2, hb3⟩
            · exact hI1.idInj f1 f2 j ha1 hb1
            · have := hjlt f1 j ha1
              omega
            · have := hjlt f2 j hb1
              omega
            · rw [ha3, hb3]
          · intro f j hf
            rw [addMaps_index_to_id, hidx2]
            rcases addMaps_id_to_index_char nm ids s2 n f j hf with
              ⟨ha1, _⟩ | ⟨ha1, ha2, ha3⟩
            · have hjn := hjlt f j ha1
              rw [if_neg (by omega)]
              exact hI1.idIdx f j ha1
            · rw [if_pos ⟨ha1, ha2⟩, ← ha3]
          · intro i f hf
            rw [addMaps_index_to_id, hidx2] at hf
            by_cases hr : n ≤ i ∧ i < n + ids.length
            · rw [if_pos hr] at hf
              injection hf with hf
              apply addMaps_id_to_index_isSome
              right
              rw [← hf]
              apply List.mem_map_of_mem
              have hlt : i - n < ids.length := by omega
              rw [List.getD_eq_getElem _ _ hlt]
              exact List.getElem_mem hlt
            · rw [if_neg hr] at hf
              apply addMaps_id_to_index_isSome
              left
              rw [hid2]
              exact hI1.idxId i f hf

theorem reach_storeInv {s : Store} (h : Reach s) : StoreInv s := by
  induction h with
  | empty d => exact emptyStore_inv d
  | upsert normalize nm ids vectors h ih => exact upsert_state_inv normalize ih nm ids vectors
  | del nm ids h ih => exact delete_inv ih nm ids

theorem pairwise_filterMapD {α β : Type} {R : α → α → Prop} {S : β → β → Prop}
    (f : α → Option β)
    (hf : ∀ a b x y, R a b → f a = some x → f b = some y → S x y) :
    ∀ {l : List α}, l.Pairwise R → (l.filterMap f).Pairwise S := by
  intro l
  induction l with
  | nil => intro _; simp
  | cons a l ih =>
    intro h
    rcases List.pairwise_cons.mp h with ⟨ha, hl⟩
    cases hfa : f a with
    | none => simpa [List.filterMap_cons, hfa] using ih hl
    | some x =>
      simp only [List.filterMap_cons, hfa]
      refine List.pairwise_cons.mpr ⟨?_, ih hl⟩
      intro y hy
      rcases List.mem_filterMap.mp hy with ⟨b, hb, hfb⟩
      exact hf a b x y (ha b hb) hfa hfb

theorem scoredSlots_length (vecs : List (List ℚ)) (q : List ℚ) :
    (scoredSlots vecs q).length = vecs.length := by
  simp [scoredSlots]

theorem scoredSlots_nodup_fst (vecs : List (List ℚ)) (q : List ℚ) :
    ((scoredSlots vecs q).map Prod.fst).Nodup := by
  have h : (scoredSlots vecs q).map Prod.fst = vecs.enum.map Prod.fst := by
    unfold scoredSlots
    rw [List.map_map]
    exact List.map_congr_left fun a _ => rfl
  rw [h]
  exact List.nodup_enum_map_fst vecs

theorem faissSearch_length (vecs : List (List ℚ)) (q : List ℚ) (k : Nat) :
    (faissSearch vecs q k).length = min k vecs.length := by
  simp [faissSearch, scoredSlots]

theorem faissSearch_sorted (vecs : List (List ℚ)) (q : List ℚ) (k : Nat) :
    List.Sorted rge (faissSearch vecs q k) :=
  (List.sorted_insertionSort rge _).sublist (List.take_sublist _ _)

theorem faissSearch_full (vecs : List (List ℚ)) (q : List ℚ) :
    faissSearch vecs q vecs.length =
      List.insertionSort rge (scoredSlots vecs q) := by
  unfold faissSearch
  apply List.take_of_length_le
  rw [List.length_insertionSort, scoredSlots_length]

theorem faissSearch_perm (vecs : List (List ℚ)) (q : List ℚ) :
    List.Perm (faissSearch vecs q vecs.length) (scoredSlots vecs q) := by
  rw [faissSearch_full]
  exact List.perm_insertionSort rge _

theorem faissSearch_nodup_fst (vecs : List (List ℚ)) (q : List ℚ) (k : Nat) :
    ((faissSearch vecs q k).map Prod.fst).Nodup := by
  have hperm : List.Perm (List.insertionSort rge (scoredSlots vecs q))
      (scoredSlots vecs q) :=
    List.perm_insertionSort rge _
  have hnd : ((List.insertionSort rge (scoredSlots vecs q)).map Prod.fst).Nodup :=
    (List.Perm.nodup_iff (hperm.map Prod.fst)).mpr (scoredSlots_nodup_fst vecs q)
  exact hnd.sublist ((List.take_sublist _ _).map Prod.fst)

theorem faissSearch_pairwise_strict (vecs : List (List ℚ)) (q : List ℚ)
    (k : Nat) : (faissSearch vecs q k).Pairwise rgt := by
  have h1 : (faissSearch vecs q k).Pairwise rge := faissSearch_sorted vecs q k
  have h2 : (faissSearch vecs q k).Pairwise (fun a b => a.1 ≠ b.1) :=
    List.pairwise_map.mp (faissSearch_nodup_fst vecs q k)
  refine (h1.and h2).imp ?_
  rintro a b ⟨hr, hne⟩
  rcases hr with hr | ⟨hr1, hr2⟩
  · exact Or.inl hr
  · exact Or.inr ⟨hr1, lt_of_le_of_ne hr2 hne⟩

theorem search_eq (normalize : List ℚ → List ℚ) (s : Store) (nm : String)
    (q : List ℚ) (k : Nat) :
    Store.search normalize s nm q k =
      (faissSearch s.vecs (normalize q) (min k s.vecs.length)).filterMap
        (postFilter s nm) := by
  unfold Store.search
  by_cases h : s.vecs.length = 0
  · rw [if_pos h]
    have hv : s.vecs = [] := List.length_eq_zero.mp h
    simp [faissSearch, scoredSlots, hv]
  · rw [if_neg h]

theorem postFilter_some_iff {s : Store} {nm : String} {p : Nat × ℚ}
    {d : String} {sc : ℚ} :
    postFilter s nm p = some (d, sc) ↔
      sc = p.2 ∧ lookupD s.index_to_id p.1 = some (fullId nm d) := by
  constructor
  · intro h
    cases hl : lookupD s.index_to_id p.1 with
    | none =>
      have hpf : postFilter s nm p = none := by
        unfold postFilter
        rw [hl]
      rw [hpf] at h
      cases h
    | some fid =>
      have hpf : postFilter s nm p =
          if strStartsWith fid (nm ++ ":") = true then
            some (strDropLen fid (nm ++ ":").length, p.2)
          else none := by
        unfold postFilter
        rw [hl]
      rw [hpf] at h
      by_cases hs : strStartsWith fid (nm ++ ":") = true
      · rw [if_pos hs] at h
        injection h with h
        have h1 : strDropLen fid (nm ++ ":").length = d := congrArg Prod.fst h
        have h2 : p.2 = sc := congrArg Prod.snd h
        refine ⟨h2.symm, ?_⟩
        have hf : fullId nm d = fid := by
          rw [← h1]
          exact strStartsWith_append_drop fid (nm ++ ":") hs
        exact congrArg some hf.symm
      · rw [if_neg hs] at h
        cases h
  · rintro ⟨hsc, hl⟩
    have hpf : postFilter s nm p =
        if strStartsWith (fullId nm d) (nm ++ ":") = true then
          some (strDropLen (fullId nm d) (nm ++ ":").length, p.2)
        else none := by
      unfold postFilter
      rw [hl]
    rw [hpf, if_pos (strStartsWith_fullId nm d), strDropLen_fullId, hsc]

theorem mem_rangeD : ∀ (k a i : Nat), i ∈ rangeD a k → a ≤ i ∧ i < a + k
  | 0, a, i, h => by cases h
  | Nat.succ k, a, i, h => by
    rcases List.mem_cons.mp h with h | h
    · omega
    · have := mem_rangeD k (a + 1) i h
      omega

theorem rangeD_zero_eq_range : ∀ (n : Nat), rangeD 0 n = List.range n := by
  have key : ∀ (k a : Nat), rangeD a k = (List.range k).map (a + ·) := by
    intro k
    induction k with
    | zero => intro a; rfl
    | succ k ih =>
      intro a
      rw [List.range_succ_eq_map]
      simp only [rangeD, List.map_cons, Nat.add_zero, List.map_map]
      refine congrArg (a :: ·) ?_
      rw [ih (a + 1)]
      refine List.map_congr_left ?_
      intro x _
      simp only [Function.comp_apply]
      omega
  intro n
  rw [key n 0]
  have : (List.range n).map (0 + ·) = (List.range n).map id :=
    List.map_congr_left fun x _ => by simp
  rw [this, List.map_id]

theorem rangeD_pairwise_lt : ∀ (k a : Nat), (rangeD a k).Pairwise (· < ·)
  | 0, a => List.Pairwise.nil
  | Nat.succ k, a => by
    refine List.pairwise_cons.mpr ⟨?_, rangeD_pairwise_lt k (a + 1)⟩
    intro i hi
    have := mem_rangeD k (a + 1) i hi
    omega

theorem cntLt_nil (i : Nat) : cntLt [] i = 0 := rfl

theorem cntLt_cons (a : Nat) (t : List Nat) (i : Nat) :
    cntLt (a :: t) i = (if a < i then 1 else 0) + cntLt t i := by
  by_cases h : a < i
  · simp [cntLt, List.filter_cons, h]
    omega
  · simp [cntLt, List.filter_cons, h]

theorem cntLt_eq_zero {KS : List Nat} {i : Nat} (h : ∀ x ∈ KS, ¬ x < i) :
    cntLt KS i = 0 := by
  induction KS with
  | nil => rfl
  | cons a t ih =>
    rw [cntLt_cons, ih fun x hx => h x (List.mem_cons_of_mem _ hx)]
    simp [h a (List.mem_cons_self _ _)]

theorem cntLt_mono (KS : List Nat) {i j : Nat} (h : i ≤ j) :
    cntLt KS i ≤ cntLt KS j := by
  induction KS with
  | nil => simp [cntLt_nil]
  | cons a t ih =>
    rw [cntLt_cons, cntLt_cons]
    have : (if a < i then 1 else 0) ≤ if a < j then (1 : Nat) else 0 := by
      by_cases h1 : a < i
      · rw [if_pos h1, if_pos (by omega)]
      · by_cases h2 : a < j <;> simp [h1, h2]
    omega

theorem cntLt_strict {KS : List Nat} {i j : Nat} (hi : i ∈ KS) (hij : i < j) :
    cntLt KS i < cntLt KS j := by
  induction KS with
  | nil => cases hi
  | cons a t ih =>
    rw [cntLt_cons, cntLt_cons]
    rcases List.mem_cons.mp hi with h | h
    · subst h
      have h1 : ¬ i < i := by omega
      have h2 : i < j := hij
      have h3 : cntLt t i ≤ cntLt t j := cntLt_mono t (by omega)
      simp only [if_neg h1, if_pos h2]
      omega
    · have := ih h
      have : (if a < i then 1 else 0) ≤ if a < j then (1 : Nat) else 0 := by
        by_cases h1 : a < i
        · rw [if_pos h1, if_pos (by omega)]
        · by_cases h2 : a < j <;> simp [h1, h2]
      omega

theorem cntLt_le_iff {KS : List Nat}
    {i j : Nat} (hj : j ∈ KS) :
    i ≤ j ↔ cntLt KS i ≤ cntLt KS j := by
  constructor
  · intro h
    exact cntLt_mono KS h
  · intro h
    by_contra hc
    have hji : j < i := by omega
    have := cntLt_strict hj hji
    omega

theorem enumFrom_sorted_eq : ∀ (KS : List Nat), KS.Pairwise (· < ·) →
    ∀ (a : Nat), List.enumFrom a KS = KS.map fun i => (a + cntLt KS i, i) := by
  intro KS
  induction KS with
  | nil => intro _ _; rfl
  | cons i0 t ih =>
    intro hp a
    rcases List.pairwise_cons.mp hp with ⟨h0, ht⟩
    have hhead : cntLt (i0 :: t) i0 = 0 := by
      rw [cntLt_cons, cntLt_eq_zero fun x hx => by have := h0 x hx; omega]
      simp
    simp only [List.enumFrom, List.map_cons, hhead, Nat.add_zero]
    refine congrArg ((a, i0) :: ·) ?_
    rw [ih ht (a + 1)]
    refine List.map_congr_left ?_
    intro i hi
    have hcnt : cntLt (i0 :: t) i = 1 + cntLt t i := by
      rw [cntLt_cons, if_pos (h0 i hi)]
    rw [hcnt]
    refine congrArg (fun x => (x, i)) ?_
    omega

theorem enumFrom_map {α β : Type} (g : α → β) :
    ∀ (l : List α) (a : Nat),
      List.enumFrom a (l.map g) = (List.enumFrom a l).map fun p => (p.1, g p.2)
  | [], _ => rfl
  | x :: xs, a => by
    simp only [List.map_cons, List.enumFrom]
    exact congrArg ((a, g x) :: ·) (enumFrom_map g xs (a + 1))

theorem enumFrom_filter {α : Type} (qb : Nat → Bool) (d : α) :
    ∀ (l : List α) (a : Nat),
      (List.enumFrom a l).filter (fun p => qb p.1) =
        ((rangeD a l.length).filter qb).map fun i => (i, l.getD (i - a) d)
  | [], _ => rfl
  | x :: xs, a => by
    simp only [List.enumFrom, List.length_cons, rangeD]
    rw [List.filter_cons, List.filter_cons]
    by_cases hq : qb a
    · simp only [hq, if_pos]
      rw [enumFrom_filter qb d xs (a + 1)]
      simp only [List.map_cons, Nat.sub_self, List.getD_cons_zero]
      refine congrArg ((a, x) :: ·) ?_
      refine List.map_congr_left ?_
      intro i hi
      have hmem : i ∈ rangeD (a + 1) xs.length :=
        List.mem_of_mem_filter hi
      have hb := mem_rangeD xs.length (a + 1) i hmem
      have : i - a = (i - (a + 1)) + 1 := by omega
      rw [this, List.getD_cons_succ]
    · simp only [hq]
      rw [enumFrom_filter qb d xs (a + 1)]
      refine List.map_congr_left ?_
      intro i hi
      have hmem : i ∈ rangeD (a + 1) xs.length :=
        List.mem_of_mem_filter hi
      have hb := mem_rangeD xs.length (a + 1) i hmem
      have : i - a = (i - (a + 1)) + 1 := by omega
      rw [this, List.getD_cons_succ]

theorem rebuild_eq_of_ne (s : Store) (toRemove : List Nat) (h : toRemove ≠ []) :
    s.rebuild toRemove =
      { s with
        vecs := (rebuildKept s toRemove).map fun p => s.vecs.getD p.1 [],
        index_to_id := enumD 0 ((rebuildKept s toRemove).map Prod.snd),
        id_to_index :=
          invertD (enumD 0 ((rebuildKept s toRemove).map Prod.snd)) } := by
  unfold Store.rebuild
  rw [if_neg h]
  by_cases hk : rebuildKept s toRemove = []
  · rw [if_pos hk, hk]
    rfl
  · rw [if_neg hk]

theorem map_getD_range {α : Type} (l : List α) (d : α) :
    (List.range l.length).map (fun i => l.getD i d) = l := by
  apply List.ext_getElem?
  intro j
  by_cases hj : j < l.length
  · rw [List.getElem?_map, List.getElem?_range hj, List.getElem?_eq_getElem hj]
    simp only [Option.map_some']
    rw [List.getD_eq_getElem _ _ hj]
  · have h1 : (List.range l.length)[j]? = none :=
      List.getElem?_eq_none (by simpa using hj)
    have h2 : l[j]? = none := List.getElem?_eq_none (by omega)
    rw [List.getElem?_map, h1, h2]
    rfl

theorem rebuildKept_char {s t : Store} {rem : List Nat}
    (hvecs : t.vecs = s.vecs)
    (hLook : ∀ i, lookupD t.index_to_id i =
      if i ∈ rem then none else lookupD s.index_to_id i)
    (hslots : ∀ i, (lookupD s.index_to_id i).isSome ↔ i < s.vecs.length) :
    (rebuildKept t rem).map Prod.fst =
        (List.range s.vecs.length).filter (fun i => decide (i ∉ rem)) ∧
      ∀ p ∈ rebuildKept t rem, lookupD s.index_to_id p.1 = some p.2 := by
  unfold rebuildKept
  rw [hvecs]
  have key : ∀ L : List Nat, (∀ i ∈ L, i < s.vecs.length) →
      ((L.filterMap fun i =>
          if i ∈ rem then none
          else match lookupD t.index_to_id i with
            | some fid => some (i, fid)
            | none => none).map Prod.fst =
        L.filter (fun i => decide (i ∉ rem)) ∧
      ∀ p ∈ L.filterMap fun i =>
          if i ∈ rem then none
          else match lookupD t.index_to_id i with
            | some fid => some (i, fid)
            | none => none, lookupD s.index_to_id p.1 = some p.2) := by
    intro L
    induction L with
    | nil => intro _; exact ⟨rfl, by intro p hp; cases hp⟩
    | cons i L ih =>
      intro hb
      have hi : i < s.vecs.length := hb i (List.mem_cons_self _ _)
      have hL : ∀ j ∈ L, j < s.vecs.length :=
        fun j hj => hb j (List.mem_cons_of_mem _ hj)
      obtain ⟨ih1, ih2⟩ := ih hL
      by_cases hr : i ∈ rem
      · rw [List.filterMap_cons, if_pos hr, List.filter_cons]
        have : (decide (i ∉ rem)) = false := by simp [hr]
        rw [this]
        exact ⟨ih1, ih2⟩
      · have hsome : (lookupD s.index_to_id i).isSome := (hslots i).mpr hi
        rcases Option.isSome_iff_exists.mp hsome with ⟨fid, hfid⟩
        have hti : lookupD t.index_to_id i = some fid := by
          rw [hLook i, if_neg hr, hfid]
        rw [List.filterMap_cons, if_neg hr, hti, List.filter_cons]
        have : (decide (i ∉ rem)) = true := by simp [hr]
        rw [this]
        simp only [List.map_cons, if_pos]
        refine ⟨by rw [ih1], ?_⟩
        intro p hp
        rcases List.mem_cons.mp hp with hp | hp
        · subst hp
          exact hfid
        · exact ih2 p hp
  exact key (List.range s.vecs.length) fun i hi => List.mem_range.mp hi

theorem delete_vecs {s : Store} (hI : StoreInv s) (nm : String)
    (ids : List String) :
    (s.delete nm ids).vecs =
      (keptSlots s nm ids).map fun i => s.vecs.getD i [] := by
  unfold Store.delete keptSlots deletedSlots
  by_cases h0 : ids = []
  · rw [if_pos h0]
    subst h0
    show s.vecs = _
    have : (delLoop nm s []).1 = [] := rfl
    rw [this]
    have hfil : (List.range s.vecs.length).filter
        (fun i => decide (i ∉ ([] : List Nat))) = List.range s.vecs.length :=
      List.filter_eq_self.mpr fun a _ => by simp
    rw [hfil, map_getD_range]
  · rw [if_neg h0]
    by_cases h1 : (delLoop nm s ids).1 = []
    · rw [if_pos h1, delLoop_nil_state nm ids s h1, h1]
      have hfil : (List.range s.vecs.length).filter
          (fun i => decide (i ∉ ([] : List Nat))) = List.range s.vecs.length :=
        List.filter_eq_self.mpr fun a _ => by simp
      rw [hfil, map_getD_range]
    · rw [if_neg h1, rebuild_eq_of_ne _ _ h1]
      obtain ⟨hkf, _⟩ := rebuildKept_char (delLoop_frame nm ids s).2.1
        (delLoop_index_to_id nm ids s) hI.slots
      show (rebuildKept (delLoop nm s ids).2 (delLoop nm s ids).1).map
          (fun p => (delLoop nm s ids).2.vecs.getD p.1 []) = _
      have hv : (delLoop nm s ids).2.vecs = s.vecs := (delLoop_frame nm ids s).2.1
      calc (rebuildKept (delLoop nm s ids).2 (delLoop nm s ids).1).map
            (fun p => (delLoop nm s ids).2.vecs.getD p.1 [])
          = (rebuildKept (delLoop nm s ids).2 (delLoop nm s ids).1).map
            (fun p => s.vecs.getD p.1 []) := by rw [hv]
        _ = ((rebuildKept (delLoop nm s ids).2 (delLoop nm s ids).1).map
            Prod.fst).map (fun i => s.vecs.getD i []) := by
            rw [List.map_map]
            exact List.map_congr_left fun p _ => rfl
        _ = _ := by rw [hkf]

theorem delete_index_lookup {s : Store} (hI : StoreInv s) (nm : String)
    (ids : List String) (j : Nat) :
    lookupD (s.delete nm ids).index_to_id j =
      ((keptSlots s nm ids)[j]?).bind fun i => lookupD s.index_to_id i := by
  have htriv : lookupD s.index_to_id j =
      (((List.range s.vecs.length).filter
        (fun i => decide (i ∉ ([] : List Nat))))[j]?).bind
        (fun i => lookupD s.index_to_id i) := by
    have hfil : (List.range s.vecs.length).filter
        (fun i => decide (i ∉ ([] : List Nat))) = List.range s.vecs.length :=
      List.filter_eq_self.mpr fun a _ => by simp
    rw [hfil]
    by_cases hj : j < s.vecs.length
    · rw [List.getElem?_range hj]
      rfl
    · have h1 : (List.range s.vecs.length)[j]? = none :=
        List.getElem?_eq_none (by simpa using hj)
      rw [h1]
      have := (hI.slots j).not.mpr hj
      simp only [Option.not_isSome_iff_eq_none] at this
      rw [this]
      rfl
  unfold Store.delete keptSlots deletedSlots
  by_cases h0 : ids = []
  · rw [if_pos h0]
    subst h0
    exact htriv
  · rw [if_neg h0]
    by_cases h1 : (delLoop nm s ids).1 = []
    · rw [if_pos h1, delLoop_nil_state nm ids s h1, h1]
      exact htriv
    · rw [if_neg h1, rebuild_eq_of_ne _ _ h1]
      obtain ⟨hkf, hk2⟩ := rebuildKept_char (delLoop_frame nm ids s).2.1
        (delLoop_index_to_id nm ids s) hI.slots
      show lookupD (enumD 0 ((rebuildKept (delLoop nm s ids).2
          (delLoop nm s ids).1).map Prod.snd)) j = _
      rw [lookupD_enumD]
      rw [if_pos (Nat.zero_le j), Nat.sub_zero]
      rw [List.getElem?_map, ← hkf, List.getElem?_map]
      cases hKj : (rebuildKept (delLoop nm s ids).2 (delLoop nm s ids).1)[j]? with
      | none => rfl
      | some p =>
        simp only [Option.map_some', Option.some_bind]
        have hmem : p ∈ rebuildKept (delLoop nm s ids).2 (delLoop nm s ids).1 := by
          rcases List.getElem?_eq_some.mp hKj with ⟨hlt, heq⟩
          rw [← heq]
          exact List.getElem_mem hlt
        rw [hk2 p hmem]

theorem mem_enumFrom_getElem? {α : Type} :
    ∀ (l : List α) (a j : Nat) (x : α),
      (j, x) ∈ List.enumFrom a l → l[j - a]? = some x
  | [], a, j, x, h => by cases h
  | y :: ys, a, j, x, h => by
    rcases List.mem_cons.mp h with h | h
    · injection h with h1 h2
      subst h1
      subst h2
      simp
    · have := mem_enumFrom_getElem? ys (a + 1) j x h
      have hb : a + 1 ≤ j := by
        have : ∀ (l : List α) (a j : Nat) (x : α),
            (j, x) ∈ List.enumFrom a l → a ≤ j := by
          intro l
          induction l with
          | nil => intro a j x h; cases h
          | cons z zs ih =>
            intro a j x h
            rcases List.mem_cons.mp h with h | h
            · injection h with h1 _
              omega
            · have := ih (a + 1) j x h
              omega
        have := this ys (a + 1) j x h
        omega
      have hd : j - a = (j - (a + 1)) + 1 := by omega
      rw [hd, List.getElem?_cons_succ]
      exact this

theorem sorted_getElem?_cntLt {KS : List Nat} (hKS : KS.Pairwise (· < ·))
    {i : Nat} (hi : i ∈ KS) : KS[cntLt KS i]? = some i := by
  have h1 : (cntLt KS i, i) ∈ List.enumFrom 0 KS := by
    rw [enumFrom_sorted_eq KS hKS 0]
    have : (fun x => ((0 : Nat) + cntLt KS x, x)) i = (cntLt KS i, i) := by
      simp
    rw [← this]
    exact List.mem_map_of_mem _ hi
  have := mem_enumFrom_getElem? KS 0 (cntLt KS i) i h1
  simpa using this

theorem filterMap_filter_comm {α β : Type} (f : α → Option β) (p : α → Bool)
    (q : β → Bool) :
    ∀ (l : List α), (∀ x ∈ l, ∀ y, f x = some y → p x = q y) →
      (l.filter p).filterMap f = (l.filterMap f).filter q := by
  intro l
  induction l with
  | nil => intro _; rfl
  | cons a t ih =>
    intro h
    have ht : ∀ x ∈ t, ∀ y, f x = some y → p x = q y :=
      fun x hx => h x (List.mem_cons_of_mem _ hx)
    rw [List.filter_cons, List.filterMap_cons]
    cases hfa : f a with
    | none =>
      by_cases hp : p a
      · rw [if_pos hp, List.filterMap_cons, hfa]
        exact ih ht
      · rw [if_neg (by simpa using hp)]
        exact ih ht
    | some y =>
      have hpq := h a (List.mem_cons_self _ _) y hfa
      by_cases hp : p a
      · rw [if_pos hp, List.filterMap_cons, hfa, List.filter_cons,
          ← hpq, if_pos hp]
        rw [ih ht]
      · rw [if_neg (by simpa using hp), List.filter_cons, ← hpq]
        rw [if_neg (by simpa using hp)]
        exact ih ht

theorem keptSlots_pairwise (s : Store) (nm : String) (ids : List String) :
    (keptSlots s nm ids).Pairwise (· < ·) := by
  unfold keptSlots
  rw [← rangeD_zero_eq_range]
  exact (rangeD_pairwise_lt s.vecs.length 0).filter _

theorem scoredSlots_fst_lt {vecs : List (List ℚ)} {q : List ℚ}
    {p : Nat × ℚ} (h : p ∈ scoredSlots vecs q) : p.1 < vecs.length := by
  have h2 : p.1 ∈ (scoredSlots vecs q).map Prod.fst := List.mem_map_of_mem _ h
  have h3 : (scoredSlots vecs q).map Prod.fst = vecs.enum.map Prod.fst := by
    unfold scoredSlots
    rw [List.map_map]
    exact List.map_congr_left fun a _ => rfl
  rw [h3, List.enum_map_fst] at h2
  exact List.mem_range.mp h2

theorem enum_eq_enumFrom {α : Type} (l : List α) :
    l.enum = List.enumFrom 0 l := rfl

/-- After a delete, a query over the surviving collection returns exactly the
pre-delete ranking with the deleted documents' entries removed: scores are
unchanged and the survivors keep their relative order. -/
theorem delete_search_filter (normalize : List ℚ → List ℚ) {s : Store}
    (hI : StoreInv s) (hSI : SlotInj s) (nm : String) (del_ids : List String)
    (q : List ℚ) :
    Store.search normalize (s.delete nm del_ids) nm q
        (s.delete nm del_ids).vecs.length =
      (Store.search normalize s nm q s.vecs.length).filter
        fun p => decide (p.1 ∉ del_ids) := by
  have hKSp : (keptSlots s nm del_ids).Pairwise (· < ·) :=
    keptSlots_pairwise s nm del_ids
  have F1 : (s.delete nm del_ids).vecs =
      (keptSlots s nm del_ids).map fun i => s.vecs.getD i [] :=
    delete_vecs hI nm del_ids
  have F2 : ∀ j, lookupD (s.delete nm del_ids).index_to_id j =
      ((keptSlots s nm del_ids)[j]?).bind fun i => lookupD s.index_to_id i :=
    delete_index_lookup hI nm del_ids
  -- step B: the scored slot list of the rebuilt index is the filtered,
  -- renumbered scored slot list of the original index
  have stepB : scoredSlots (s.delete nm del_ids).vecs (normalize q) =
      ((scoredSlots s.vecs (normalize q)).filter
        (fun p => decide (p.1 ∉ deletedSlots s nm del_ids))).map
        (fun p => (cntLt (keptSlots s nm del_ids) p.1, p.2)) := by
    have hleft : scoredSlots (s.delete nm del_ids).vecs (normalize q) =
        (keptSlots s nm del_ids).map fun i =>
          (cntLt (keptSlots s nm del_ids) i,
            dotQ (normalize q) (s.vecs.getD i [])) := by
      rw [F1]
      unfold scoredSlots
      rw [enum_eq_enumFrom, enumFrom_map]
      rw [enumFrom_sorted_eq _ hKSp 0]
      rw [List.map_map, List.map_map]
      refine List.map_congr_left ?_
      intro i _
      simp only [Function.comp_apply]
      rw [Nat.zero_add]
    have hright : (scoredSlots s.vecs (normalize q)).filter
        (fun p => decide (p.1 ∉ deletedSlots s nm del_ids)) =
        (keptSlots s nm del_ids).map fun i =>
          (i, dotQ (normalize q) (s.vecs.getD i [])) := by
      unfold scoredSlots
      rw [List.filter_map]
      have hcongr : List.filter
          ((fun p => decide (p.1 ∉ deletedSlots s nm del_ids)) ∘
            fun p => (p.1, dotQ (normalize q) p.2)) s.vecs.enum =
          List.filter (fun p => decide (p.1 ∉ deletedSlots s nm del_ids))
            s.vecs.enum :=
        List.filter_congr fun x _ => rfl
      rw [hcongr, enum_eq_enumFrom,
        enumFrom_filter (fun i => decide (i ∉ deletedSlots s nm del_ids)) []]
      rw [rangeD_zero_eq_range]
      show (((List.range s.vecs.length).filter
          (fun i => decide (i ∉ deletedSlots s nm del_ids))).map
          fun i => (i, s.vecs.getD (i - 0) [])).map
            (fun p => (p.1, dotQ (normalize q) p.2)) = _
      rw [List.map_map]
      refine List.map_congr_left ?_
      intro i _
      simp only [Function.comp_apply, Nat.sub_zero]
    rw [hleft, hright, List.map_map]
    refine List.map_congr_left ?_
    intro i _
    simp only [Function.comp_apply]
  -- step C: sorting commutes with the order-preserving renumbering
  have stepC : List.insertionSort rge
      (((scoredSlots s.vecs (normalize q)).filter
        (fun p => decide (p.1 ∉ deletedSlots s nm del_ids))).map
        (fun p => (cntLt (keptSlots s nm del_ids) p.1, p.2))) =
      (List.insertionSort rge
        ((scoredSlots s.vecs (normalize q)).filter
          (fun p => decide (p.1 ∉ deletedSlots s nm del_ids)))).map
        (fun p => (cntLt (keptSlots s nm del_ids) p.1, p.2)) := by
    refine (List.map_insertionSort rge rge _ _ ?_).symm
    intro a ha b hb
    have hmem : ∀ x ∈ (scoredSlots s.vecs (normalize q)).filter
        (fun p => decide (p.1 ∉ deletedSlots s nm del_ids)),
        x.1 ∈ keptSlots s nm del_ids := by
      intro x hx
      have h1 : x ∈ scoredSlots s.vecs (normalize q) :=
        List.mem_of_mem_filter hx
      have h2 : x.1 < s.vecs.length := scoredSlots_fst_lt h1
      have h3 : decide (x.1 ∉ deletedSlots s nm del_ids) = true :=
        (List.mem_filter.mp hx).2
      unfold keptSlots
      apply List.mem_filter.mpr
      exact ⟨List.mem_range.mpr h2, h3⟩
    have hka := hmem a ha
    have hkb := hmem b hb
    show rge a b ↔ rge _ _
    unfold rge
    constructor
    · rintro (h | ⟨h1, h2⟩)
      · exact Or.inl h
      · exact Or.inr ⟨h1, (cntLt_le_iff hkb).mp h2⟩
    · rintro (h | ⟨h1, h2⟩)
      · exact Or.inl h
      · exact Or.inr ⟨h1, (cntLt_le_iff hkb).mpr h2⟩
  -- step D: sorting commutes with filtering
  have stepD : List.insertionSort rge
      ((scoredSlots s.vecs (normalize q)).filter
        (fun p => decide (p.1 ∉ deletedSlots s nm del_ids))) =
      (List.insertionSort rge (scoredSlots s.vecs (normalize q))).filter
        (fun p => decide (p.1 ∉ deletedSlots s nm del_ids)) := by
    exact List.eq_of_perm_of_sorted (r := rge)
      ((List.perm_insertionSort rge _).trans
        ((List.perm_insertionSort rge _).filter _).symm)
      (List.sorted_insertionSort rge _)
      ((List.sorted_insertionSort rge _).filter _)
  -- pointwise transfer of the post-filter through the renumbering
  have stepF : ∀ x ∈ List.insertionSort rge
      ((scoredSlots s.vecs (normalize q)).filter
        (fun p => decide (p.1 ∉ deletedSlots s nm del_ids))),
      postFilter (s.delete nm del_ids) nm
        (cntLt (keptSlots s nm del_ids) x.1, x.2) = postFilter s nm x := by
    intro x hx
    have hx2 : x ∈ (scoredSlots s.vecs (normalize q)).filter
        (fun p => decide (p.1 ∉ deletedSlots s nm del_ids)) :=
      (List.perm_insertionSort rge _).mem_iff.mp hx
    have h1 : x ∈ scoredSlots s.vecs (normalize q) :=
      List.mem_of_mem_filter hx2
    have h2 : x.1 < s.vecs.length := scoredSlots_fst_lt h1
    have h3 : decide (x.1 ∉ deletedSlots s nm del_ids) = true :=
      (List.mem_filter.mp hx2).2
    have hks : x.1 ∈ keptSlots s nm del_ids := by
      unfold keptSlots
      exact List.mem_filter.mpr ⟨List.mem_range.mpr h2, h3⟩
    have hlook : lookupD (s.delete nm del_ids).index_to_id
        (cntLt (keptSlots s nm del_ids) x.1) = lookupD s.index_to_id x.1 := by
      rw [F2, sorted_getElem?_cntLt hKSp hks]
      rfl
    unfold postFilter
    rw [hlook]
  -- step G: the collection-level filter commutes out of the post-filter
  have stepG : ((List.insertionSort rge
      (scoredSlots s.vecs (normalize q))).filter
        (fun p => decide (p.1 ∉ deletedSlots s nm del_ids))).filterMap
        (postFilter s nm) =
      ((List.insertionSort rge
        (scoredSlots s.vecs (normalize q))).filterMap
          (postFilter s nm)).filter (fun y => decide (y.1 ∉ del_ids)) := by
    apply filterMap_filter_comm
    intro x hx y hy
    have hx2 : x ∈ scoredSlots s.vecs (normalize q) :=
      (List.perm_insertionSort rge _).mem_iff.mp hx
    have hxlt : x.1 < s.vecs.length := scoredSlots_fst_lt hx2
    obtain ⟨d, sc⟩ := y
    obtain ⟨hsc, hfull⟩ := postFilter_some_iff.mp hy
    have hiff : x.1 ∈ deletedSlots s nm del_ids ↔ d ∈ del_ids := by
      constructor
      · intro hrem
        unfold deletedSlots at hrem
        rcases (delLoop_removed nm del_ids s x.1).mp hrem with ⟨d2, hd2, hl2⟩
        have := hI.idIdx _ _ hl2
        rw [hfull] at this
        injection this with hinj
        rw [fullId_inj_doc hinj]
        exact hd2
      · intro hdel
        have hsome := hI.idxId _ _ hfull
        rcases Option.isSome_iff_exists.mp hsome with ⟨j, hj⟩
        have hjfull := hI.idIdx _ _ hj
        have hij : x.1 = j := hSI x.1 j _ hfull hjfull
        unfold deletedSlots
        rw [hij]
        exact (delLoop_removed nm del_ids s j).mpr ⟨d, hdel, hj⟩
    show decide (x.1 ∉ deletedSlots s nm del_ids) = decide (d ∉ del_ids)
    exact decide_eq_decide.mpr (not_congr hiff)
  -- now assemble
  rw [search_eq, search_eq, Nat.min_self, Nat.min_self]
  rw [faissSearch_full, faissSearch_full]
  rw [stepB, stepC, List.filterMap_map]
  have hpt : ∀ x ∈ List.insertionSort rge
      ((scoredSlots s.vecs (normalize q)).filter
        (fun p => decide (p.1 ∉ deletedSlots s nm del_ids))),
      ((postFilter (s.delete nm del_ids) nm) ∘
        fun p => (cntLt (keptSlots s nm del_ids) p.1, p.2)) x =
        postFilter s nm x := by
    intro x hx
    exact stepF x hx
  rw [List.filterMap_congr hpt, stepD, stepG]

theorem mem_fusedIds_of_faiss {faissMap esMap : List (String × ℚ)}
    {did : String} {fa : ℚ} (h : lookupD faissMap did = some fa) :
    did ∈ fusedIds faissMap esMap := by
  unfold fusedIds
  apply List.mem_append_left
  exact List.mem_map_of_mem _ (lookupD_mem h)

theorem mem_fusedIds_of_es {faissMap esMap : List (String × ℚ)}
    {did : String} {es : ℚ} (hf : lookupD faissMap did = none)
    (h : lookupD esMap did = some es) : did ∈ fusedIds faissMap esMap := by
  unfold fusedIds
  apply List.mem_append_right
  apply List.mem_filter.mpr
  refine ⟨List.mem_map_of_mem _ (lookupD_mem h), by simp [hf]⟩

theorem ite_append_push {c : Prop} [Decidable c] (l m : List String) :
    (if c then l ++ m else l) = l ++ (if c then m else []) := by
  by_cases h : c <;> simp [h]

theorem ite_ite_collapse {c1 c2 : Prop} [Decidable c1] [Decidable c2]
    (m : List String) :
    (if c1 then (if c2 then m else []) else ([] : List String)) =
      if c1 ∧ c2 then m else [] := by
  by_cases h1 : c1 <;> by_cases h2 : c2 <;> simp [h1, h2]

theorem prepare_job_offer_text_spec (d : JobOfferData) :
    prepare_job_offer_text d = jobOfferTextSpec d := by
  unfold prepare_job_offer_text jobOfferTextSpec
  simp only [ite_append_push, ite_ite_collapse]
  simp only [List.flatten_cons, List.flatten_nil, List.append_assoc,
    List.append_nil, List.nil_append]

theorem delD_of_lookup_none {α β : Type} [DecidableEq α]
    {d : List (α × β)} {k : α} (h : lookupD d k = none) : delD d k = d := by
  induction d with
  | nil => rfl
  | cons p rest ih =>
    by_cases hp : p.1 = k
    · simp [lookupD, hp] at h
    · simp only [lookupD, if_neg hp] at h
      simp [delD, hp, ih h]

theorem updD_map_fst_fresh {α β : Type} [DecidableEq α]
    {d : List (α × β)} {k : α} (v : β) (h : lookupD d k = none) :
    (updD d k v).map Prod.fst = d.map Prod.fst ++ [k] := by
  unfold updD
  rw [delD_of_lookup_none h, List.map_append]
  rfl

theorem lookupD_foldl_updD {α β : Type} [DecidableEq α] (b : β) :
    ∀ (ids : List α) (r : List (α × β)) (k : α),
      lookupD (ids.foldl (fun r i => updD r i b) r) k =
        if k ∈ ids then some b else lookupD r k
  | [], r, k => by simp
  | i :: t, r, k => by
    rw [List.foldl_cons, lookupD_foldl_updD b t (updD r i b) k]
    by_cases ht : k ∈ t
    · simp [ht, List.mem_cons]
    · rw [if_neg ht, lookupD_updD]
      by_cases hk : k = i
      · simp [hk, List.mem_cons]
      · have : ¬ k ∈ i :: t := by
          simp only [List.mem_cons]
          rintro (h | h)
          · exact hk h
          · exact ht h
        simp [this, hk]

theorem foldl_updD_map_fst {α β : Type} [DecidableEq α] (b : β) :
    ∀ (ids : List α) (r : List (α × β)), ids.Nodup →
      (∀ i ∈ ids, lookupD r i = none) →
      (ids.foldl (fun r i => updD r i b) r).map Prod.fst =
        r.map Prod.fst ++ ids
  | [], r, _, _ => by simp
  | i :: t, r, hn, hf => by
    rw [List.foldl_cons]
    have hfr : lookupD r i = none := hf i (List.mem_cons_self _ _)
    have hn2 := List.nodup_cons.mp hn
    have hft : ∀ j ∈ t, lookupD (updD r i b) j = none := by
      intro j hj
      rw [lookupD_updD]
      have : ¬ j = i := fun hh => hn2.1 (hh ▸ hj)
      rw [if_neg this]
      exact hf j (List.mem_cons_of_mem _ hj)
    rw [foldl_updD_map_fst b t (updD r i b) hn2.2 hft,
      updD_map_fst_fresh b hfr, List.append_assoc]
    rfl

theorem length_filter_not_split {α : Type} (P : α → Prop) [DecidablePred P] :
    ∀ l : List α,
      (l.filter fun x => decide (P x)).length +
        (l.filter fun x => decide (¬ P x)).length = l.length
  | [] => rfl
  | x :: t => by
    have ih := length_filter_not_split P t
    rw [List.filter_cons, List.filter_cons]
    by_cases h : P x
    · rw [if_pos (by simpa using h), if_neg (by simpa using h)]
      simp only [List.length_cons]
      omega
    · rw [if_neg (by simpa using h), if_pos (by simpa using h)]
      simp only [List.length_cons]
      omega

theorem batchPhase1_aux {E : Type} (prepare : E → String) :
    ∀ (data : List (String × E))
      (acc : List (String × Bool) × List String × List String),
      (data.foldl
        (fun acc p =>
          if pyStrip (prepare p.2) ≠ "" then
            (acc.1, acc.2.1 ++ [prepare p.2], acc.2.2 ++ [p.1])
          else (updD acc.1 p.1 false, acc.2.1, acc.2.2)) acc).2.2 =
        acc.2.2 ++ batchedIds prepare data ∧
      ((data.foldl
        (fun acc p =>
          if pyStrip (prepare p.2) ≠ "" then
            (acc.1, acc.2.1 ++ [prepare p.2], acc.2.2 ++ [p.1])
          else (updD acc.1 p.1 false, acc.2.1, acc.2.2)) acc).2.1 = [] ↔
        (acc.2.1 = [] ∧ batchedIds prepare data = [])) ∧
      (∀ id, lookupD (data.foldl
        (fun acc p =>
          if pyStrip (prepare p.2) ≠ "" then
            (acc.1, acc.2.1 ++ [prepare p.2], acc.2.2 ++ [p.1])
          else (updD acc.1 p.1 false, acc.2.1, acc.2.2)) acc).1 id =
        if id ∈ emptyTextIds prepare data then some false
        else lookupD acc.1 id)
  | [], acc => by
    refine ⟨by simp [batchedIds], ?_, ?_⟩
    · simp [batchedIds]
    · intro id
      simp [emptyTextIds]
  | p :: rest, acc => by
    obtain ⟨ih1, ih2, ih3⟩ := batchPhase1_aux prepare rest
      (if pyStrip (prepare p.2) ≠ "" then
        (acc.1, acc.2.1 ++ [prepare p.2], acc.2.2 ++ [p.1])
      else (updD acc.1 p.1 false, acc.2.1, acc.2.2))
    rw [List.foldl_cons]
    by_cases hp : pyStrip (prepare p.2) ≠ ""
    · have hb : batchedIds prepare (p :: rest) =
          p.1 :: batchedIds prepare rest := by
        unfold batchedIds
        rw [List.filter_cons, if_pos (by simpa using hp)]
        rfl
      have he : emptyTextIds prepare (p :: rest) =
          emptyTextIds prepare rest := by
        unfold emptyTextIds
        rw [List.filter_cons, if_neg (by simpa using hp)]
      rw [if_pos hp] at ih1 ih2 ih3 ⊢
      refine ⟨?_, ?_, ?_⟩
      · rw [ih1]
        simp [hb]
      · rw [ih2, hb]
        constructor
        · rintro ⟨h1, h2⟩
          exact absurd h1 (by simp)
        · rintro ⟨h1, h2⟩
          cases h2
      · intro id
        rw [ih3 id, he]
    · have hb : batchedIds prepare (p :: rest) =
          batchedIds prepare rest := by
        unfold batchedIds
        rw [List.filter_cons, if_neg (by simpa using hp)]
      have he : emptyTextIds prepare (p :: rest) =
          p.1 :: emptyTextIds prepare rest := by
        unfold emptyTextIds
        rw [List.filter_cons, if_pos (by simpa using hp)]
        rfl
      rw [if_neg hp] at ih1 ih2 ih3 ⊢
      refine ⟨?_, ?_, ?_⟩
      · rw [ih1, hb]
      · rw [ih2, hb]
      · intro id
        rw [ih3 id, he]
        by_cases hid : id ∈ emptyTextIds prepare rest
        · simp [hid, List.mem_cons]
        · rw [if_neg hid]
          by_cases hid2 : id = p.1
          · rw [lookupD_updD, if_pos hid2]
            simp [hid2, hid, List.mem_cons]
          · rw [lookupD_updD, if_neg hid2]
            have : ¬ id ∈ p.1 :: emptyTextIds prepare rest := by
              simp only [List.mem_cons]
              rintro (h | h)
              · exact hid2 h
              · exact hid h
            rw [if_neg this]

theorem batchPhase1_ids {E : Type} (prepare : E → String)
    (data : List (String × E)) :
    (batchPhase1 prepare data).2.2 = batchedIds prepare data := by
  have h := (batchPhase1_aux prepare data (([], [], []))).1
  simpa [batchPhase1] using h

theorem batchPhase1_texts_nil {E : Type} (prepare : E → String)
    (data : List (String × E)) :
    (batchPhase1 prepare data).2.1 = [] ↔ batchedIds prepare data = [] := by
  have h := (batchPhase1_aux prepare data (([], [], []))).2.1
  simpa [batchPhase1] using h

theorem batchPhase1_lookup {E : Type} (prepare : E → String)
    (data : List (String × E)) (id : String) :
    lookupD (batchPhase1 prepare data).1 id =
      if id ∈ emptyTextIds prepare data then some false else none := by
  have h := (batchPhase1_aux prepare data (([], [], []))).2.2 id
  simpa [batchPhase1, lookupD] using h

theorem batchPhase1_map_fst_aux {E : Type} (prepare : E → String) :
    ∀ (data : List (String × E))
      (acc : List (String × Bool) × List String × List String),
      (data.map Prod.fst).Nodup → (∀ p ∈ data, lookupD acc.1 p.1 = none) →
      ((data.foldl
        (fun acc p =>
          if pyStrip (prepare p.2) ≠ "" then
            (acc.1, acc.2.1 ++ [prepare p.2], acc.2.2 ++ [p.1])
          else (updD acc.1 p.1 false, acc.2.1, acc.2.2)) acc).1).map Prod.fst =
        acc.1.map Prod.fst ++ emptyTextIds prepare data
  | [], acc, _, _ => by simp [emptyTextIds]
  | p :: rest, acc, hn, hf => by
    rw [List.foldl_cons]
    have hn2 : (rest.map Prod.fst).Nodup := by
      rw [List.map_cons] at hn
      exact (List.nodup_cons.mp hn).2
    have hp1 : p.1 ∉ rest.map Prod.fst := by
      rw [List.map_cons] at hn
      exact (List.nodup_cons.mp hn).1
    by_cases hp : pyStrip (prepare p.2) ≠ ""
    · have he : emptyTextIds prepare (p :: rest) =
          emptyTextIds prepare rest := by
        unfold emptyTextIds
        rw [List.filter_cons, if_neg (by simpa using hp)]
      rw [if_pos hp]
      rw [batchPhase1_map_fst_aux prepare rest
        (acc.1, acc.2.1 ++ [prepare p.2], acc.2.2 ++ [p.1]) hn2
        (fun q hq => hf q (List.mem_cons_of_mem _ hq))]
      rw [he]
    · have he : emptyTextIds prepare (p :: rest) =
          p.1 :: emptyTextIds prepare rest := by
        unfold emptyTextIds
        rw [List.filter_cons, if_pos (by simpa using hp)]
        rfl
      have hffresh : ∀ q ∈ rest, lookupD (updD acc.1 p.1 false) q.1 = none := by
        intro q hq
        rw [lookupD_updD]
        have hne : ¬ q.1 = p.1 := by
          intro hh
          exact hp1 (hh ▸ List.mem_map_of_mem Prod.fst hq)
        rw [if_neg hne]
        exact hf q (List.mem_cons_of_mem _ hq)
      rw [if_neg hp, batchPhase1_map_fst_aux prepare rest _ hn2 hffresh,
        updD_map_fst_fresh false (hf p (List.mem_cons_self _ _)), he,
        List.append_assoc]
      rfl

theorem batchPhase1_map_fst {E : Type} (prepare : E → String)
    (data : List (String × E)) (hn : (data.map Prod.fst).Nodup) :
    ((batchPhase1 prepare data).1).map Prod.fst = emptyTextIds prepare data := by
  have h := batchPhase1_map_fst_aux prepare data (([], [], [])) hn
    (fun p _ => rfl)
  simpa [batchPhase1] using h

theorem mem_batched_or_empty {E : Type} (prepare : E → String)
    (data : List (String × E)) (id : String) :
    id ∈ data.map Prod.fst ↔
      id ∈ batchedIds prepare data ∨ id ∈ emptyTextIds prepare data := by
  constructor
  · intro h
    rcases List.mem_map.mp h with ⟨p, hp, hid⟩
    by_cases hc : pyStrip (prepare p.2) ≠ ""
    · left
      unfold batchedIds
      rw [← hid]
      exact List.mem_map_of_mem _ (List.mem_filter.mpr ⟨hp, by simpa using hc⟩)
    · right
      unfold emptyTextIds
      rw [← hid]
      exact List.mem_map_of_mem _ (List.mem_filter.mpr ⟨hp, by simpa using hc⟩)
  · intro h
    rcases h with h | h
    · rcases List.mem_map.mp h with ⟨p, hp, hid⟩
      rw [← hid]
      exact List.mem_map_of_mem _ (List.mem_of_mem_filter hp)
    · rcases List.mem_map.mp h with ⟨p, hp, hid⟩
      rw [← hid]
      exact List.mem_map_of_mem _ (List.mem_of_mem_filter hp)

theorem batched_empty_disjoint {E : Type} (prepare : E → String)
    (data : List (String × E)) (hn : (data.map Prod.fst).Nodup) (id : String)
    (hb : id ∈ batchedIds prepare data) : id ∉ emptyTextIds prepare data := by
  intro he
  rcases List.mem_map.mp hb with ⟨p, hp, hpid⟩
  rcases List.mem_map.mp he with ⟨q, hq, hqid⟩
  have hpd : p ∈ data := List.mem_of_mem_filter hp
  have hqd : q ∈ data := List.mem_of_mem_filter hq
  have hpq : p = q :=
    List.inj_on_of_nodup_map hn hpd hqd (hpid.trans hqid.symm)
  have hcp : decide (pyStrip (prepare p.2) ≠ "") = true := (List.mem_filter.mp hp).2
  have hcq : decide (¬ pyStrip (prepare q.2) ≠ "") = true := (List.mem_filter.mp hq).2
  rw [hpq] at hcp
  simp at hcp hcq
  exact hcp hcq

theorem batchedIds_nodup {E : Type} (prepare : E → String)
    (data : List (String × E)) (hn : (data.map Prod.fst).Nodup) :
    (batchedIds prepare data).Nodup := by
  unfold batchedIds
  exact hn.sublist ((List.filter_sublist data).map Prod.fst)

theorem batchedIds_length {E : Type} (prepare : E → String)
    (data : List (String × E)) :
    (batchedIds prepare data).length + (emptyTextIds prepare data).length =
      data.length := by
  unfold batchedIds emptyTextIds
  rw [List.length_map, List.length_map]
  exact length_filter_not_split (fun p => pyStrip (prepare p.2) ≠ "") data

theorem batch_index_results_lookup {E : Type} (prepare : E → String)
    (normalize : List ℚ → List ℚ) (s : Store) (nm : String)
    (data : List (String × E)) (embedRes : Option (List (List ℚ)))
    (id : String) :
    lookupD (batch_index prepare normalize s nm data embedRes).1 id =
      if id ∈ batchedIds prepare data then
        some (batchFlag prepare normalize s nm data embedRes)
      else if id ∈ emptyTextIds prepare data then some false
      else none := by
  unfold batch_index
  by_cases ht : (batchPhase1 prepare data).2.1 = []
  · have hb : batchedIds prepare data = [] :=
      (batchPhase1_texts_nil prepare data).mp ht
    rw [if_neg (by simp [ht])]
    rw [batchPhase1_lookup prepare data id, hb]
    simp
  · rw [if_pos ht]
    cases embedRes with
    | none =>
      simp only
      rw [batchPhase1_ids, lookupD_foldl_updD, batchPhase1_lookup]
      unfold batchFlag
      by_cases hbm : id ∈ batchedIds prepare data
      · simp [hbm]
      · simp [hbm]
    | some embeddings =>
      simp only
      rw [batchPhase1_ids]
      unfold batchFlag
      cases hup : Store.upsert normalize s nm (batchedIds prepare data)
          embeddings with
      | ok s2 =>
        simp only
        rw [lookupD_foldl_updD, batchPhase1_lookup]
        by_cases hbm : id ∈ batchedIds prepare data
        · simp [hbm, hup]
        · simp [hbm]
      | err msg s2 =>
        simp only
        rw [lookupD_foldl_updD, batchPhase1_lookup]
        by_cases hbm : id ∈ batchedIds prepare data
        · simp [hbm, hup]
        · simp [hbm]

theorem batch_index_results_length {E : Type} (prepare : E → String)
    (normalize : List ℚ → List ℚ) (s : Store) (nm : String)
    (data : List (String × E)) (embedRes : Option (List (List ℚ)))
    (hn : (data.map Prod.fst).Nodup) :
    ((batch_index prepare normalize s nm data embedRes).1).length =
      data.length := by
  have hlen := batchedIds_length prepare data
  have hfresh : ∀ i ∈ batchedIds prepare data,
      lookupD (batchPhase1 prepare data).1 i = none := by
    intro i hi
    rw [batchPhase1_lookup]
    rw [if_neg (batched_empty_disjoint prepare data hn i hi)]
  have hkey : ∀ (b : Bool),
      ((batchedIds prepare data).foldl (fun r i => updD r i b)
        (batchPhase1 prepare data).1).length = data.length := by
    intro b
    have h1 := foldl_updD_map_fst b (batchedIds prepare data)
      (batchPhase1 prepare data).1 (batchedIds_nodup prepare data hn) hfresh
    have h2 : (((batchedIds prepare data).foldl (fun r i => updD r i b)
        (batchPhase1 prepare data).1).map Prod.fst).length =
        ((batchPhase1 prepare data).1.map Prod.fst ++
          batchedIds prepare data).length := by rw [h1]
    rw [List.length_map] at h2
    rw [h2, List.length_append, batchPhase1_map_fst prepare data hn]
    omega
  unfold batch_index
  by_cases ht : (batchPhase1 prepare data).2.1 = []
  · have hb : batchedIds prepare data = [] :=
      (batchPhase1_texts_nil prepare data).mp ht
    rw [if_neg (by simp [ht])]
    have h2 : ((batchPhase1 prepare data).1.map Prod.fst).length =
        (emptyTextIds prepare data).length := by
      rw [batchPhase1_map_fst prepare data hn]
    rw [List.length_map] at h2
    show ((batchPhase1 prepare data).1).length = data.length
    rw [h2]
    rw [hb] at hlen
    simpa using hlen
  · rw [if_pos ht]
    cases embedRes with
    | none =>
      simp only
      rw [batchPhase1_ids]
      exact hkey false
    | some embeddings =>
      simp only
      rw [batchPhase1_ids]
      cases hup : Store.upsert normalize s nm (batchedIds prepare data)
          embeddings with
      | ok s2 =>
        simp only
        exact hkey true
      | err msg s2 =>
        simp only
        exact hkey false

theorem demoStore_inv : StoreInv demoStore :=
  reach_storeInv (Reach.upsert (fun v => v) ("c") (["a", "b"])
    ([[1, 0, 0], [0, 1, 0]]) (Reach.empty 3))

theorem demoStore_slotInj : SlotInj demoStore := by
  intro i1 i2 f h1 h2
  have hv : demoStore.index_to_id = [(0, ("c:a")), (1, ("c:b"))] := by decide
  rw [hv] at h1 h2
  have key : ∀ (i : Nat) (g : String),
      lookupD [((0 : Nat), ("c:a")), (1, ("c:b"))] i = some g →
      (i = 0 ∧ g = ("c:a")) ∨ (i = 1 ∧ g = ("c:b")) := by
    intro i g h
    simp only [lookupD] at h
    by_cases h0 : (0 : Nat) = i
    · rw [if_pos h0] at h
      injection h with h
      exact Or.inl ⟨h0.symm, h.symm⟩
    · rw [if_neg h0] at h
      by_cases hone : (1 : Nat) = i
      · rw [if_pos hone] at h
        injection h with h
        exact Or.inr ⟨hone.symm, h.symm⟩
      · rw [if_neg hone] at h
        cases h
  rcases key i1 f h1 with ⟨e1, ef1⟩ | ⟨e1, ef1⟩ <;>
    rcases key i2 f h2 with ⟨e2, ef2⟩ | ⟨e2, ef2⟩
  · rw [e1, e2]
  · exact absurd (ef1.symm.trans ef2) (by decide)
  · exact absurd (ef1.symm.trans ef2) (by decide)
  · rw [e1, e2]

/-- C1: the spec requires both the index file and the sidecar mapping file to
be rewritten before every mutating operation returns; `upsert` does save, but
`delete` mutates only the in-memory state and never calls `save`, leaving both
files stale.  Evaluation at the failing input: one vector is upserted under
id `x` (files then match memory), then deleted — memory empties while both
files still hold the pre-delete index and mapping. -/
theorem c1_delete_does_not_persist :
    (((Store.upsert (fun v => v) (emptyStore 1) ("candidates") (["x"])
        ([[(1 : ℚ)]])).state).delete ("candidates") (["x"])).vecs = [] ∧
    (((Store.upsert (fun v => v) (emptyStore 1) ("candidates") (["x"])
        ([[(1 : ℚ)]])).state).delete ("candidates") (["x"])).id_to_index = [] ∧
    (((Store.upsert (fun v => v) (emptyStore 1) ("candidates") (["x"])
        ([[(1 : ℚ)]])).state).delete ("candidates") (["x"])).diskVecs =
      [[(1 : ℚ)]] ∧
    (((Store.upsert (fun v => v) (emptyStore 1) ("candidates") (["x"])
        ([[(1 : ℚ)]])).state).delete ("candidates") (["x"])).diskIdToIndex =
      [(("candidates:x"), 0)] ∧
    (((Store.upsert (fun v => v) (emptyStore 1) ("candidates") (["x"])
        ([[(1 : ℚ)]])).state).delete ("candidates") (["x"])).diskIndexToId =
      [((0 : Nat), ("candidates:x"))] := by
  decide

/-- C2 counterexample: (i) `upsert` with an empty id list and a non-empty
vector list has differing lengths yet returns normally with no error and no
mutation, so the claimed `InvalidInput` failure does not fire for this shape;
(ii) a homogeneous wrong-dimension batch for an already-present id fails only
inside the index `add`, after the internal delete has already removed the old
mapping entry — the mapping is mutated, contradicting "no mutation before the
check fires". -/
theorem c2_counterexample :
    (Store.upsert (fun v => v) (emptyStore 1) ("c") ([]) ([[(1 : ℚ)]]) =
      UpsertResult.ok (emptyStore 1)) ∧
    (Store.upsert (fun v => v)
        ((Store.upsert (fun v => v) (emptyStore 1) ("c") (["x"])
          ([[(1 : ℚ)]])).state) ("c") (["x"]) ([[(1 : ℚ), 2]]) =
      UpsertResult.err ("faiss add: dimension assertion")
        (((Store.upsert (fun v => v) (emptyStore 1) ("c") (["x"])
          ([[(1 : ℚ)]])).state).delete ("c") (["x"]))) ∧
    ((((Store.upsert (fun v => v) (emptyStore 1) ("c") (["x"])
        ([[(1 : ℚ)]])).state).delete ("c") (["x"])).id_to_index ≠
      (((Store.upsert (fun v => v) (emptyStore 1) ("c") (["x"])
        ([[(1 : ℚ)]])).state)).id_to_index) := by
  decide

/-- C2 (amended): when both the id list and the vector list are non-empty and
their lengths differ, `upsert` raises the `ValueError` and leaves the store —
index, mappings and on-disk files — completely unchanged.  (The vector
dimension is not validated at entry: a wrong-dimension batch fails later,
inside the index `add`, after the delete phase has already mutated the
mapping, and an empty list short-circuits before the length check.) -/
theorem c2_length_mismatch_rejected (normalize : List ℚ → List ℚ) (s : Store)
    (nm : String) (ids : List String) (vectors : List (List ℚ))
    (h1 : ids ≠ []) (h2 : vectors ≠ [])
    (h3 : ids.length ≠ vectors.length) :
    Store.upsert normalize s nm ids vectors =
      UpsertResult.err
        ("Le nombre d'IDs doit correspondre au nombre de vecteurs") s := by
  rw [upsert_eq]
  have hne : ¬ (ids = [] ∨ vectors = []) := by
    rintro (h | h)
    · exact h1 h
    · exact h2 h
  rw [if_neg hne, if_pos h3]

theorem c2_length_mismatch_witness :
    Store.upsert (fun v => v) (emptyStore 1) ("c") (["a"])
        ([[(1 : ℚ)], [(2 : ℚ)]]) =
      UpsertResult.err
        ("Le nombre d'IDs doit correspondre au nombre de vecteurs")
        (emptyStore 1) :=
  c2_length_mismatch_rejected (fun v => v) (emptyStore 1) ("c") (["a"])
    ([[(1 : ℚ)], [(2 : ℚ)]]) (by decide) (by decide) (by decide)

/-- C3: after every sequence of `upsert`/`delete` calls from a fresh store
(including the states a failed `upsert` leaves behind), the mapping-table
invariant holds: a slot is mapped in `index_to_id` exactly when it is occupied
in the physical index (no orphan vectors), and every id in `id_to_index`
points at an occupied slot (no dangling ids). -/
theorem c3_mapping_invariant {s : Store} (h : Reach s) :
    (∀ i, (lookupD s.index_to_id i).isSome ↔ i < s.vecs.length) ∧
    (∀ f j, lookupD s.id_to_index f = some j → j < s.vecs.length) := by
  have hI := reach_storeInv h
  refine ⟨hI.slots, ?_⟩
  intro f j hf
  apply (hI.slots j).mp
  rw [hI.idIdx f j hf]
  rfl

theorem c3_witness :
    (∀ i, (lookupD ((Store.upsert (fun v => v) (emptyStore 3) ("c")
        (["a", "b"]) ([[1, 0, 0], [0, 1, 0]])).state).index_to_id i).isSome ↔
      i < ((Store.upsert (fun v => v) (emptyStore 3) ("c")
        (["a", "b"]) ([[1, 0, 0], [0, 1, 0]])).state).vecs.length) ∧
    (∀ f j, lookupD ((Store.upsert (fun v => v) (emptyStore 3) ("c")
        (["a", "b"]) ([[1, 0, 0], [0, 1, 0]])).state).id_to_index f = some j →
      j < ((Store.upsert (fun v => v) (emptyStore 3) ("c")
        (["a", "b"]) ([[1, 0, 0], [0, 1, 0]])).state).vecs.length) :=
  c3_mapping_invariant (Reach.upsert (fun v => v) ("c") (["a", "b"])
    ([[1, 0, 0], [0, 1, 0]]) (Reach.empty 3))

/-- C4: `search` returns at most `k` results; it returns the empty sequence on
an empty index; the underlying flat-index ranking is strictly ordered by
descending score with ties broken by ascending slot (insertion) order, and the
returned list is its order-preserving projection, hence sorted by descending
score; `k` larger than the number of stored vectors is clamped — the call
behaves exactly as with `k` equal to the stored count, not as an error. -/
theorem c4_search_contract (normalize : List ℚ → List ℚ) (s : Store)
    (nm : String) (q : List ℚ) (k : Nat) :
    (s.vecs = [] → Store.search normalize s nm q k = []) ∧
    (Store.search normalize s nm q k).length ≤ k ∧
    Store.search normalize s nm q k =
      (faissSearch s.vecs (normalize q) (min k s.vecs.length)).filterMap
        (postFilter s nm) ∧
    (faissSearch s.vecs (normalize q) (min k s.vecs.length)).Pairwise rgt ∧
    (Store.search normalize s nm q k).Pairwise
      (fun a b : String × ℚ => b.2 ≤ a.2) ∧
    (s.vecs.length ≤ k →
      Store.search normalize s nm q k =
        Store.search normalize s nm q s.vecs.length) := by
  refine ⟨?_, ?_, search_eq normalize s nm q k, faissSearch_pairwise_strict _ _ _, ?_, ?_⟩
  · intro h
    unfold Store.search
    rw [if_pos (by rw [h]; rfl)]
  · rw [search_eq]
    calc ((faissSearch s.vecs (normalize q)
          (min k s.vecs.length)).filterMap (postFilter s nm)).length
        ≤ (faissSearch s.vecs (normalize q) (min k s.vecs.length)).length :=
          List.length_filterMap_le _ _
      _ = min (min k s.vecs.length) s.vecs.length := faissSearch_length _ _ _
      _ ≤ k := by omega
  · rw [search_eq]
    refine pairwise_filterMapD (postFilter s nm) ?_ (faissSearch_sorted _ _ _)
    intro a b x y hab hxa hyb
    obtain ⟨dx, sx⟩ := x
    obtain ⟨dy, sy⟩ := y
    obtain ⟨hx2, _⟩ := postFilter_some_iff.mp hxa
    obtain ⟨hy2, _⟩ := postFilter_some_iff.mp hyb
    show sy ≤ sx
    rw [hx2, hy2]
    rcases hab with h | ⟨h, _⟩
    · exact le_of_lt h
    · exact le_of_eq h.symm
  · intro hk
    rw [search_eq, search_eq, Nat.min_self, Nat.min_eq_right hk]

theorem c4_witness :
    Store.search (fun v => v) (emptyStore 3) ("c") ([1, 0, 0]) 5 = [] ∧
    Store.search (fun v => v) demoStore ("c") ([1, 0, 0]) 7 =
      Store.search (fun v => v) demoStore ("c") ([1, 0, 0])
        demoStore.vecs.length :=
  ⟨(c4_search_contract (fun v => v) (emptyStore 3) ("c") ([1, 0, 0]) 5).1 rfl,
   (c4_search_contract (fun v => v) demoStore ("c") ([1, 0, 0]) 7).2.2.2.2.2
     (by decide)⟩

/-- C5: `delete` rebuilds the index: the store keeps its dimension, the
surviving vectors are exactly the non-removed slots read back in ascending
slot order, the mapping is regenerated so that new slot `j` holds what old
slot `keptSlots[j]` held — and consequently, for every query, searching the
rebuilt collection returns exactly the pre-delete ranking with the deleted
ids' entries removed: unchanged scores and unchanged relative order of the
survivors.  Hypotheses: the mapping invariant (which every reachable store
satisfies) and slot-injectivity of `index_to_id` (which holds when external
ids are unique per collection, §3). -/
theorem c5_delete_rebuild (normalize : List ℚ → List ℚ) {s : Store}
    (hI : StoreInv s) (hSI : SlotInj s) (nm : String) (ids : List String) :
    (s.delete nm ids).dimension = s.dimension ∧
    (s.delete nm ids).vecs =
      (keptSlots s nm ids).map (fun i => s.vecs.getD i []) ∧
    (∀ j, lookupD (s.delete nm ids).index_to_id j =
      ((keptSlots s nm ids)[j]?).bind fun i => lookupD s.index_to_id i) ∧
    ∀ q, Store.search normalize (s.delete nm ids) nm q
        (s.delete nm ids).vecs.length =
      (Store.search normalize s nm q s.vecs.length).filter
        fun p => decide (p.1 ∉ ids) :=
  ⟨(delete_frame s nm ids).1, delete_vecs hI nm ids,
    delete_index_lookup hI nm ids,
    fun q => delete_search_filter normalize hI hSI nm ids q⟩

theorem c5_witness :
    ((demoStore.delete ("c") (["b"])).dimension = demoStore.dimension ∧
    (demoStore.delete ("c") (["b"])).vecs =
      (keptSlots demoStore ("c") (["b"])).map
        (fun i => demoStore.vecs.getD i []) ∧
    (∀ j, lookupD (demoStore.delete ("c") (["b"])).index_to_id j =
      ((keptSlots demoStore ("c") (["b"]))[j]?).bind
        fun i => lookupD demoStore.index_to_id i) ∧
    ∀ q, Store.search (fun v => v) (demoStore.delete ("c") (["b"])) ("c") q
        (demoStore.delete ("c") (["b"])).vecs.length =
      (Store.search (fun v => v) demoStore ("c") q
        demoStore.vecs.length).filter fun p => decide (p.1 ∉ (["b"]))) :=
  c5_delete_rebuild (fun v => v) demoStore_inv demoStore_slotInj ("c") (["b"])

/-- C6: retrieval fusion — an id present in both score maps receives
`0.6*vector + 0.4*lexical`; an id only in the vector map keeps its vector
score; an id only in the lexical map receives `0.4*lexical`; the fused list
ranges over exactly the union of the two id sets, is sorted descending by
fused score (ties in an unspecified order) and is truncated to `top_k`. -/
theorem c6_fusion_spec (faissMap esMap : List (String × ℚ)) (top_k : Nat) :
    (∀ did fa es, lookupD faissMap did = some fa →
      lookupD esMap did = some es →
      (did, (0.6 : ℚ) * fa + (0.4 : ℚ) * es) ∈ fuseAll faissMap esMap) ∧
    (∀ did fa, lookupD faissMap did = some fa → lookupD esMap did = none →
      (did, fa) ∈ fuseAll faissMap esMap) ∧
    (∀ did es, lookupD faissMap did = none → lookupD esMap did = some es →
      (did, (0.4 : ℚ) * es) ∈ fuseAll faissMap esMap) ∧
    (∀ p ∈ fuseAll faissMap esMap,
      p.1 ∈ faissMap.map Prod.fst ∨ p.1 ∈ esMap.map Prod.fst) ∧
    fuse faissMap esMap top_k =
      (List.insertionSort rgeS (fuseAll faissMap esMap)).take top_k ∧
    (fuse faissMap esMap top_k).Pairwise
      (fun a b : String × ℚ => b.2 ≤ a.2) ∧
    (fuse faissMap esMap top_k).length ≤ top_k := by
  refine ⟨?_, ?_, ?_, ?_, rfl, ?_, ?_⟩
  · intro did fa es h1 h2
    have hs : fuseScore faissMap esMap did = (0.6 : ℚ) * fa + (0.4 : ℚ) * es := by
      unfold fuseScore
      rw [h1, h2]
    rw [← hs]
    exact List.mem_map_of_mem _ (mem_fusedIds_of_faiss h1)
  · intro did fa h1 h2
    have hs : fuseScore faissMap esMap did = fa := by
      unfold fuseScore
      rw [h1, h2]
    rw [← hs]
    exact List.mem_map_of_mem _ (mem_fusedIds_of_faiss h1)
  · intro did es h1 h2
    have hs : fuseScore faissMap esMap did = (0.4 : ℚ) * es := by
      unfold fuseScore
      rw [h1, h2]
    rw [← hs]
    exact List.mem_map_of_mem _ (mem_fusedIds_of_es h1 h2)
  · intro p hp
    rcases List.mem_map.mp hp with ⟨did, hdid, hpd⟩
    rcases List.mem_append.mp hdid with h | h
    · left
      rw [← hpd]
      exact h
    · right
      rw [← hpd]
      exact List.mem_of_mem_filter h
  · exact ((List.sorted_insertionSort rgeS _).sublist
      (List.take_sublist _ _))
  · unfold fuse
    calc ((List.insertionSort rgeS (fuseAll faissMap esMap)).take
          top_k).length
        ≤ top_k := by
          rw [List.length_take]
          omega

theorem c6_witness :
    ((("a"), (0.6 : ℚ) * 3 + (0.4 : ℚ) * 5) ∈
      fuseAll [(("a"), (3 : ℚ))] [(("a"), (5 : ℚ)), (("b"), (7 : ℚ))]) ∧
    ((("b"), (0.4 : ℚ) * 7) ∈
      fuseAll [(("a"), (3 : ℚ))] [(("a"), (5 : ℚ)), (("b"), (7 : ℚ))]) :=
  ⟨(c6_fusion_spec [(("a"), (3 : ℚ))] [(("a"), (5 : ℚ)), (("b"), (7 : ℚ))]
      10).1 ("a") 3 5 (by decide) (by decide),
   (c6_fusion_spec [(("a"), (3 : ℚ))] [(("a"), (5 : ℚ)), (("b"), (7 : ℚ))]
      10).2.2.1 ("b") 7 (by decide) (by decide)⟩

/-- C7 counterexample: the projection of a job offer that permits remote work
ends with the literal `"Télétravail possible"` the code actually emits, not
the literal `"Remote work possible"` the claim states (all labelled segments
likewise carry the French labels). -/
theorem c7_counterexample :
    prepare_job_offer_text
        ⟨("T"), (""), [], (""), (""), true⟩ = ("T Télétravail possible") ∧
    prepare_job_offer_text
        ⟨("T"), (""), [], (""), (""), true⟩ ≠ ("T Remote work possible") := by
  decide

/-- C7 (amended): the job-offer projection emits, in this fixed order and
joined by single spaces with absent or empty fields omitted entirely: the
title; the description; a `"Compétences requises: "`-prefixed joined skill
list; a `"Niveau: "`-prefixed seniority label if set; a
`"Localisation: "`-prefixed location if set; and the literal marker
`"Télétravail possible"` if remote work is permitted.  Two projections of
equal entity data are byte-identical, and an entity carrying only a title
projects to exactly that title with no stray separators. -/
theorem c7_projection (d : JobOfferData) :
    prepare_job_offer_text d = jobOfferTextSpec d ∧
    (∀ d2 : JobOfferData, d2 = d →
      prepare_job_offer_text d2 = prepare_job_offer_text d) ∧
    (d.description = "" → d.required_skills = [] → d.seniority = "" →
      d.location = "" → d.is_remote = false → d.title ≠ "" →
      prepare_job_offer_text d = d.title) := by
  refine ⟨prepare_job_offer_text_spec d, fun d2 h => by rw [h], ?_⟩
  intro h1 h2 h3 h4 h5 h6
  rw [prepare_job_offer_text_spec]
  unfold jobOfferTextSpec
  rw [if_pos h6, if_neg (by simp [h1]), if_neg (by simp [h2]),
    if_neg (by simp [h3]), if_neg (by simp [h4]), h5, if_neg (by simp)]
  simp only [List.flatten_cons, List.flatten_nil, List.append_nil,
    List.nil_append]
  rfl

theorem c7_witness :
    prepare_job_offer_text
        ⟨("Dev"), ("Build"), [("python")], ("senior"), ("Paris"), true⟩ =
      jobOfferTextSpec
        ⟨("Dev"), ("Build"), [("python")], ("senior"), ("Paris"), true⟩ ∧
    prepare_job_offer_text ⟨("T"), (""), [], (""), (""), false⟩ = ("T") :=
  ⟨(c7_projection ⟨("Dev"), ("Build"), [("python")], ("senior"), ("Paris"),
      true⟩).1,
   (c7_projection ⟨("T"), (""), [], (""), (""), false⟩).2.2 rfl rfl rfl rfl
     rfl (by decide)⟩

/-- C8: for any input list of (id, entity) pairs with per-collection-unique
ids, `batch_index` returns a result map whose keys are exactly the input ids
— one boolean per input id no matter which path it took — and a batch-level
embedding failure (`embedRes = none`) marks every queued id as failed, with
no partial success and no id left unset. -/
theorem c8_batch_completeness {E : Type} (prepare : E → String)
    (normalize : List ℚ → List ℚ) (s : Store) (nm : String)
    (data : List (String × E)) (embedRes : Option (List (List ℚ)))
    (hn : (data.map Prod.fst).Nodup) :
    (∀ id, (lookupD (batch_index prepare normalize s nm data
        embedRes).1 id).isSome ↔ id ∈ data.map Prod.fst) ∧
    ((batch_index prepare normalize s nm data embedRes).1).length =
      data.length ∧
    (embedRes = none → ∀ id ∈ batchedIds prepare data,
      lookupD (batch_index prepare normalize s nm data embedRes).1 id =
        some false) := by
  refine ⟨?_, batch_index_results_length prepare normalize s nm data embedRes hn, ?_⟩
  · intro id
    rw [batch_index_results_lookup, mem_batched_or_empty prepare data id]
    by_cases hb : id ∈ batchedIds prepare data
    · simp [hb]
    · by_cases he : id ∈ emptyTextIds prepare data
      · simp [hb, he]
      · simp [hb, he]
  · intro h id hid
    subst h
    rw [batch_index_results_lookup, if_pos hid]
    rfl

theorem c8_witness :
    ((lookupD (batch_index prepare_job_offer_text (fun v => v) (emptyStore 3)
        ("job_offers")
        [(("1"), ⟨("Dev"), ("Build"), [], (""), (""), false⟩),
         (("2"), ⟨(""), (""), [], (""), (""), false⟩)] none).1
        ("1")).isSome ↔
      ("1") ∈
        ([(("1"), (⟨("Dev"), ("Build"), [], (""), (""), false⟩ : JobOfferData)),
          (("2"), ⟨(""), (""), [], (""), (""), false⟩)]).map Prod.fst) ∧
    (lookupD (batch_index prepare_job_offer_text (fun v => v) (emptyStore 3)
        ("job_offers")
        [(("1"), ⟨("Dev"), ("Build"), [], (""), (""), false⟩),
         (("2"), ⟨(""), (""), [], (""), (""), false⟩)] none).1 ("1") =
      some false) :=
  ⟨(c8_batch_completeness prepare_job_offer_text (fun v => v) (emptyStore 3)
      ("job_offers")
      [(("1"), ⟨("Dev"), ("Build"), [], (""), (""), false⟩),
       (("2"), ⟨(""), (""), [], (""), (""), false⟩)] none (by decide)).1 ("1"),
   (c8_batch_completeness prepare_job_offer_text (fun v => v) (emptyStore 3)
      ("job_offers")
      [(("1"), ⟨("Dev"), ("Build"), [], (""), (""), false⟩),
       (("2"), ⟨(""), (""), [], (""), (""), false⟩)] none (by decide)).2.2 rfl
      ("1") (by decide)⟩

/-- C9: `upsert` called with an empty id list or an empty vector list returns
immediately and normally — no exception even though the two lengths may
differ, and the store (memory and disk) is returned completely unchanged, so
the length-mismatch check never fires for this input shape. -/
theorem c9_upsert_empty_noop (normalize : List ℚ → List ℚ) (s : Store)
    (nm : String) (ids : List String) (vectors : List (List ℚ))
    (h : ids = [] ∨ vectors = []) :
    Store.upsert normalize s nm ids vectors = UpsertResult.ok s := by
  rw [upsert_eq, if_pos h]

theorem c9_witness :
    Store.upsert (fun v => v) demoStore ("c") ([]) ([[(1 : ℚ), 0, 0]]) =
      UpsertResult.ok demoStore :=
  c9_upsert_empty_noop (fun v => v) demoStore ("c") ([]) ([[(1 : ℚ), 0, 0]])
    (Or.inl rfl)

theorem demo_search_eval :
    Store.search (fun v => v) demoStore ("c") ([(1 : ℚ), 0, 0]) 2 =
      [(("a"), (1 : ℚ)), (("b"), (0 : ℚ))] ∧
    Store.search (fun v => v) demoStore ("jobs") ([(1 : ℚ), 0, 0]) 1 = [] := by
  have h0 : dotQ [(1 : ℚ), 0, 0] [(1 : ℚ), 0, 0] = 1 := by norm_num [dotQ]
  have h1 : dotQ [(1 : ℚ), 0, 0] [(0 : ℚ), 1, 0] = 0 := by norm_num [dotQ]
  have hv : demoStore.vecs = [[(1 : ℚ), 0, 0], [(0 : ℚ), 1, 0]] := by decide
  have hsc : scoredSlots [[(1 : ℚ), 0, 0], [(0 : ℚ), 1, 0]]
      ([(1 : ℚ), 0, 0]) = [(0, (1 : ℚ)), (1, (0 : ℚ))] := by
    unfold scoredSlots
    simp only [List.enum_cons, List.enumFrom_cons, List.enumFrom_nil,
      List.map_cons, List.map_nil]
    rw [h0, h1]
  constructor
  · rw [search_eq]
    unfold faissSearch
    simp only [hv, hsc]
    decide
  · rw [search_eq]
    unfold faissSearch
    simp only [hv, hsc]
    decide

/-- C10: every pair returned by `search` stems from a mapping entry whose
stored full id is the collection prefix followed by the returned id (slots
missing from `index_to_id` or carrying another collection's prefix are
silently dropped), and the result can therefore hold fewer than
`min k ntotal` entries — witnessed concretely by querying a store that only
holds another collection's vectors. -/
theorem c10_search_provenance (normalize : List ℚ → List ℚ) (s : Store)
    (nm : String) (q : List ℚ) (k : Nat) :
    (∀ p ∈ Store.search normalize s nm q k,
      ∃ i, lookupD s.index_to_id i = some (fullId nm p.1)) ∧
    (Store.search (fun v => v) demoStore ("jobs") ([(1 : ℚ), 0, 0]) 1 = [] ∧
      0 < min 1 demoStore.vecs.length) := by
  constructor
  · intro p hp
    rw [search_eq] at hp
    rcases List.mem_filterMap.mp hp with ⟨x, _, hpf⟩
    obtain ⟨d, sc⟩ := p
    obtain ⟨_, hfull⟩ := postFilter_some_iff.mp hpf
    exact ⟨x.1, hfull⟩
  · exact ⟨demo_search_eval.2, by decide⟩

theorem c10_witness :
    ∃ i, lookupD demoStore.index_to_id i = some (fullId ("c") ("a")) :=
  (c10_search_provenance (fun v => v) demoStore ("c") ([(1 : ℚ), 0, 0]) 2).1
    (("a"), (1 : ℚ))
    (by rw [demo_search_eval.1]; exact List.mem_cons_self _ _)
